import Mathlib

/-!
Verification of the nitro generational-arena core against its specification.

The development shallowly embeds the type-erased generational bucket of
`src/bucket.rs` (state: blocks, layout, len, cell_count, removed, cell memory),
the saturating tag policy of `src/tag.rs`, the token bucket of
`src/token_bucket.rs`, and the erased-id access layer of `src/id_access.rs`.

Modelling conventions:
* Machine integers (`u32`, `usize`) are embedded as `Nat`; the u32 operations
  of `tag.rs` are expressed on the `u32` value range (every reachable tag is
  `≤ 2^32 - 1`), with `saturating_add 1` as `min (g+1) (2^32-1)` and the
  `g == u32::MAX` test as `2^32 - 1 ≤ g` (equivalent on the u32 range).
* Raw block memory is a total function `Nat → Cell` indexed by cell index;
  blocks are counted (`blocks : Nat`) rather than holding pointers, and cells
  whose memory was never initialized hold the default `⟨0, none⟩` — the
  operations read a cell's tag only under the same `index < cell_count` guard
  (`exists`) the source uses, so that default is never observable.
* The `removed : HashSet<usize>` is modelled as a duplicate-free list:
  `HashSet::insert` is cons, `HashSet::remove` is filter, and the arbitrary
  element yielded by `removed.iter().next()` in `Bucket::next_index` is the
  head of the list.
* `drop_cell` (`ptr::read`, i.e. move out and drop) does not change the cell
  memory, matching the machine; the values whose drop glue ran are returned
  as an instrumentation trace by `clear`/`reset`/`drop`.
* The unbounded slot-scan loop of `Bucket::place_unchecked` is expressed with
  an explicit fuel argument; `cell_count + 1` units of fuel are always enough
  for any policy whose default tag is not exhausted, which covers every policy
  of `tag.rs` (the fuel-exhaustion branch is unreachable there).
-/

namespace Nitro

/-- Values stored in a bucket, modelled as naturals. -/
abbrev Val := Nat

/-- Size/alignment descriptor captured at bucket construction (`Layout`). -/
structure Layout where
  size : Nat
  align : Nat
  deriving DecidableEq

/-- The generation ("unique tag") policy: `UniqueTag` of `src/tag.rs`.
`next` is the successor operation and `isOver` the exhaustion test; the
`Default` value of every implementation is numerically `0`. -/
structure TagPolicy where
  next : Nat → Nat
  isOver : Nat → Bool

/-- `u32::MAX`. -/
def U32MAX : Nat := 4294967295

/-- `Unique32` of `src/tag.rs`: saturating increment on `u32`, exhausted at
`u32::MAX`.  Embedded on the u32 value range (see module comment). -/
def Unique32 : TagPolicy :=
  { next := fun g => min (g + 1) U32MAX
    isOver := fun g => decide (U32MAX ≤ g) }

/-- One cell: `Cell<U, T> { tag, data }` of `src/bucket.rs`.  `data = none`
means the cell memory was never initialized with a value. -/
structure Cell where
  tag : Nat
  data : Option Val
  deriving DecidableEq

/-- The type-erased bucket of `src/bucket.rs`.  `blocks` is the number of
allocated blocks (`blocks.len()`), `mem` the content of the block memory by
global cell index. -/
structure Bucket where
  blocks : Nat
  layout : Layout
  len : Nat
  cellCount : Nat
  removed : List Nat
  mem : Nat → Cell

/-- `Bucket::new::<T>()`: no blocks, empty `removed`, recorded layout. -/
def Bucket.new (L : Layout) : Bucket :=
  { blocks := 0, layout := L, len := 0, cellCount := 0, removed := [],
    mem := fun _ => ⟨0, none⟩ }

/-- `Bucket::next_index`: an element of `removed` when non-empty, else `len`. -/
def nextIndex (b : Bucket) : Nat :=
  match b.removed with
  | i :: _ => i
  | [] => b.len

/-- `if block_index >= self.blocks.len() { self.grow(capacity) }`:
`grow` pushes exactly one block. -/
def growIf (b : Bucket) (blockIdx : Nat) : Bucket :=
  if b.blocks ≤ blockIdx then { b with blocks := b.blocks + 1 } else b

/-- `if index == self.len { self.len += 1; }`. -/
def bumpLen (b : Bucket) (idx : Nat) : Bucket :=
  if idx = b.len then { b with len := b.len + 1 } else b

/-- The tag value `place_unchecked` reads at `index`: the stored tag when the
cell exists (`index < cell_count`), else `Default::default()`. -/
def tagval (b : Bucket) (idx : Nat) : Nat :=
  if idx < b.cellCount then (b.mem idx).tag else 0

/-- `pointer.write(Cell::new(tag.next(), data)); self.removed.remove(&index);` -/
def writeCell (P : TagPolicy) (v : Val) (b : Bucket) (idx tag : Nat) : Bucket :=
  { b with
    mem := fun j => if j = idx then ⟨P.next tag, some v⟩ else b.mem j
    removed := b.removed.filter fun j => j ≠ idx }

/-- `if self.len > self.cell_count { self.cell_count = self.len; }`. -/
def ccFix (b : Bucket) : Bucket :=
  if b.cellCount < b.len then { b with cellCount := b.len } else b

/-- The slot-scan loop of `Bucket::place_unchecked`, with fuel (see module
comment).  Each iteration: ensure the block exists, skip a banned existing
cell (`is_banned_cell`, bumping `len` past it), re-test exhaustion of the tag
about to be used, else write `Cell::new(tag.next(), data)`, drop the index
from `removed`, bump `len` and `cell_count`, and return `(index, tag)`. -/
def placeLoop (P : TagPolicy) (cap : Nat) (v : Val) :
    Nat → Bucket → Nat → Bucket × Nat × Nat
  | 0, b, idx => (b, idx, 0)
  | fuel + 1, b, idx =>
    let b1 := growIf b (idx / cap)
    if idx < b1.cellCount ∧ P.isOver ((b1.mem idx).tag) = true then
      placeLoop P cap v fuel (bumpLen b1 idx) (idx + 1)
    else if P.isOver (tagval b1 idx) = true then
      placeLoop P cap v fuel (bumpLen b1 idx) (idx + 1)
    else
      (ccFix (bumpLen (writeCell P v b1 idx (tagval b1 idx)) idx), idx, tagval b1 idx)

/-- `Bucket::place_unchecked(capacity, data) -> (index, tag)`. -/
def place (P : TagPolicy) (cap : Nat) (v : Val) (b : Bucket) : Bucket × Nat × Nat :=
  placeLoop P cap v (b.cellCount + 1) b (nextIndex b)

/-- `Bucket::remove_unchecked(capacity, index) -> Option<T>`.  Mirrors the
source order: range/removed guard, `len` decrement for the last index,
banned-cell guard, then tombstone and read out the data. -/
def removeOp (P : TagPolicy) (cap : Nat) (i : Nat) (b : Bucket) : Bucket × Option Val :=
  if b.len ≤ i ∨ b.removed.contains i then (b, none)
  else
    let b1 := if i = b.len - 1 then { b with len := b.len - 1 } else b
    if P.isOver ((b1.mem i).tag) then (b1, none)
    else ({ b1 with removed := i :: b1.removed }, (b1.mem i).data)

/-- `Bucket::get_ucnhecked(capacity, index) -> Option<&T>`. -/
def getOp (P : TagPolicy) (cap : Nat) (i : Nat) (b : Bucket) : Option Val :=
  if b.len ≤ i ∨ b.removed.contains i then none
  else if P.isOver ((b.mem i).tag) then none
  else (b.mem i).data

/-- `Bucket::get_mut_unchecked(capacity, index) -> Option<&mut T>`: the same
guards as `get_ucnhecked`; the call itself does not change bucket state. -/
def getMutOp (P : TagPolicy) (cap : Nat) (i : Nat) (b : Bucket) : Option Val :=
  if b.len ≤ i ∨ b.removed.contains i then none
  else if P.isOver ((b.mem i).tag) then none
  else (b.mem i).data

/-- `Bucket::contains(capacity, index)`: in range, not banned, not removed.
Note: the tag witness of an id is not an argument. -/
def contains (P : TagPolicy) (cap : Nat) (i : Nat) (b : Bucket) : Bool :=
  if b.len ≤ i then false
  else !P.isOver ((b.mem i).tag) && !b.removed.contains i

/-- `Bucket::shrink_to_fit(capacity)`: deallocate
`(cell_count - len) / capacity` trailing blocks, set `cell_count = len`. -/
def shrinkToFit (cap : Nat) (b : Bucket) : Bucket :=
  { b with blocks := b.blocks - (b.cellCount - b.len) / cap, cellCount := b.len }

/-- The drop glue run by `Bucket::clear`: the values of the cells of
`[0, len)` that are neither banned nor removed, in the source's descending
index order. -/
def clearDrops (P : TagPolicy) (b : Bucket) : Nat → List Val
  | 0 => []
  | n + 1 =>
    (if P.isOver ((b.mem n).tag) || b.removed.contains n then []
     else (b.mem n).data.toList) ++ clearDrops P b n

/-- `Bucket::clear(capacity) -> bool`: early-returns `false` when `len == 0`;
else drops every live cell of `[0, len)` and sets `len = 0`.  `removed`,
`cell_count`, the blocks and all tags are untouched.  The dropped values are
returned as an instrumentation trace. -/
def clearOp (P : TagPolicy) (cap : Nat) (b : Bucket) : Bucket × Bool × List Val :=
  if b.len = 0 then (b, false, [])
  else ({ b with len := 0 }, true, clearDrops P b b.len)

/-- The loop of `Bucket::reset`, from index `n - 1` down to `0`: drop the
cell when it is neither removed nor banned, then unconditionally reset its
tag to the default. -/
def resetLoop (P : TagPolicy) : Nat → Bucket → Bucket × List Val
  | 0, b => (b, [])
  | n + 1, b =>
    let dropped :=
      if b.removed.contains n = false ∧ P.isOver ((b.mem n).tag) = false then
        (b.mem n).data.toList
      else []
    let b1 := { b with mem := fun j => if j = n then ⟨0, (b.mem n).data⟩ else b.mem j }
    let r := resetLoop P n b1
    (r.1, dropped ++ r.2)

/-- `Bucket::reset(capacity)`: early-returns when `len == 0`; else runs the
loop over `[0, len)` and empties `removed`.  `len` itself is not changed by
the source. -/
def resetOp (P : TagPolicy) (cap : Nat) (b : Bucket) : Bucket × List Val :=
  if b.len = 0 then (b, [])
  else
    let r := resetLoop P b.len b
    ({ r.1 with removed := [] }, r.2)

/-- `Bucket::drop(capacity)`: `if !Self::clear(...) { return; }` then
deallocate every block.  `blocks = 0` models "all blocks deallocated". -/
def dropOp (P : TagPolicy) (cap : Nat) (b : Bucket) : Bucket × List Val :=
  let r := clearOp P cap b
  if r.2.1 = false then (r.1, r.2.2)
  else ({ r.1 with blocks := 0 }, r.2.2)

/-- `Bucket::try_place`: layout guard, then `place_unchecked`. -/
def tryPlace (P : TagPolicy) (cap : Nat) (L : Layout) (v : Val) (b : Bucket) :
    Bucket × Option (Nat × Nat) :=
  if b.layout ≠ L then (b, none)
  else
    let r := place P cap v b
    (r.1, some r.2)

/-- `Bucket::try_remove`: layout guard, then `remove_unchecked`. -/
def tryRemove (P : TagPolicy) (cap : Nat) (L : Layout) (i : Nat) (b : Bucket) :
    Bucket × Option Val :=
  if b.layout ≠ L then (b, none) else removeOp P cap i b

/-- `Bucket::try_get`: layout guard, then `get_ucnhecked`. -/
def tryGet (P : TagPolicy) (cap : Nat) (L : Layout) (i : Nat) (b : Bucket) : Option Val :=
  if b.layout ≠ L then none else getOp P cap i b

/-- `Bucket::try_get_mut`: layout guard, then `get_mut_unchecked`. -/
def tryGetMut (P : TagPolicy) (cap : Nat) (L : Layout) (i : Nat) (b : Bucket) : Option Val :=
  if b.layout ≠ L then none else getMutOp P cap i b

/-! ### Basic facts about the state helpers -/

@[simp] theorem growIf_mem (b : Bucket) (n : Nat) : (growIf b n).mem = b.mem := by
  unfold growIf; split <;> rfl

@[simp] theorem growIf_len (b : Bucket) (n : Nat) : (growIf b n).len = b.len := by
  unfold growIf; split <;> rfl

@[simp] theorem growIf_cellCount (b : Bucket) (n : Nat) :
    (growIf b n).cellCount = b.cellCount := by
  unfold growIf; split <;> rfl

@[simp] theorem growIf_removed (b : Bucket) (n : Nat) : (growIf b n).removed = b.removed := by
  unfold growIf; split <;> rfl

@[simp] theorem growIf_layout (b : Bucket) (n : Nat) : (growIf b n).layout = b.layout := by
  unfold growIf; split <;> rfl

@[simp] theorem bumpLen_mem (b : Bucket) (i : Nat) : (bumpLen b i).mem = b.mem := by
  unfold bumpLen; split <;> rfl

@[simp] theorem bumpLen_removed (b : Bucket) (i : Nat) :
    (bumpLen b i).removed = b.removed := by
  unfold bumpLen; split <;> rfl

@[simp] theorem bumpLen_cellCount (b : Bucket) (i : Nat) :
    (bumpLen b i).cellCount = b.cellCount := by
  unfold bumpLen; split <;> rfl

@[simp] theorem bumpLen_layout (b : Bucket) (i : Nat) : (bumpLen b i).layout = b.layout := by
  unfold bumpLen; split <;> rfl

theorem bumpLen_len (b : Bucket) (i : Nat) :
    (bumpLen b i).len = if i = b.len then b.len + 1 else b.len := by
  unfold bumpLen; split <;> rfl

theorem le_bumpLen_len (b : Bucket) (i : Nat) : b.len ≤ (bumpLen b i).len := by
  rw [bumpLen_len]; split <;> omega

@[simp] theorem ccFix_mem (b : Bucket) : (ccFix b).mem = b.mem := by
  unfold ccFix; split <;> rfl

@[simp] theorem ccFix_removed (b : Bucket) : (ccFix b).removed = b.removed := by
  unfold ccFix; split <;> rfl

@[simp] theorem ccFix_len (b : Bucket) : (ccFix b).len = b.len := by
  unfold ccFix; split <;> rfl

@[simp] theorem ccFix_layout (b : Bucket) : (ccFix b).layout = b.layout := by
  unfold ccFix; split <;> rfl

theorem ccFix_cellCount (b : Bucket) : (ccFix b).cellCount = max b.cellCount b.len := by
  unfold ccFix; split <;> simp <;> omega

@[simp] theorem writeCell_len (P : TagPolicy) (v : Val) (b : Bucket) (i t : Nat) :
    (writeCell P v b i t).len = b.len := rfl

@[simp] theorem writeCell_cellCount (P : TagPolicy) (v : Val) (b : Bucket) (i t : Nat) :
    (writeCell P v b i t).cellCount = b.cellCount := rfl

@[simp] theorem writeCell_layout (P : TagPolicy) (v : Val) (b : Bucket) (i t : Nat) :
    (writeCell P v b i t).layout = b.layout := rfl

theorem writeCell_mem (P : TagPolicy) (v : Val) (b : Bucket) (i t : Nat) :
    (writeCell P v b i t).mem = fun j => if j = i then ⟨P.next t, some v⟩ else b.mem j := rfl

theorem writeCell_removed (P : TagPolicy) (v : Val) (b : Bucket) (i t : Nat) :
    (writeCell P v b i t).removed = b.removed.filter (fun j => j ≠ i) := rfl

@[simp] theorem tagval_growIf (b : Bucket) (n idx : Nat) :
    tagval (growIf b n) idx = tagval b idx := by
  unfold tagval; simp

/-- The state written by the exit branch of the place loop: grow the block if
needed, write the cell, erase the index from `removed`, bump `len`, update
`cell_count`. -/
def placeWrite (P : TagPolicy) (cap : Nat) (v : Val) (b : Bucket) (idx : Nat) : Bucket :=
  ccFix (bumpLen
    (writeCell P v (growIf b (idx / cap)) idx (tagval (growIf b (idx / cap)) idx)) idx)

theorem placeWrite_mem (P : TagPolicy) (cap : Nat) (v : Val) (b : Bucket) (idx : Nat) :
    (placeWrite P cap v b idx).mem =
      fun j => if j = idx then ⟨P.next (tagval b idx), some v⟩ else b.mem j := by
  unfold placeWrite
  rw [ccFix_mem, bumpLen_mem, writeCell_mem]
  simp

theorem placeWrite_removed (P : TagPolicy) (cap : Nat) (v : Val) (b : Bucket) (idx : Nat) :
    (placeWrite P cap v b idx).removed = b.removed.filter (fun j => j ≠ idx) := by
  unfold placeWrite
  rw [ccFix_removed, bumpLen_removed, writeCell_removed, growIf_removed]

theorem placeWrite_len (P : TagPolicy) (cap : Nat) (v : Val) (b : Bucket) (idx : Nat) :
    (placeWrite P cap v b idx).len = if idx = b.len then b.len + 1 else b.len := by
  unfold placeWrite
  rw [ccFix_len, bumpLen_len]; simp

theorem placeWrite_cellCount (P : TagPolicy) (cap : Nat) (v : Val) (b : Bucket) (idx : Nat) :
    (placeWrite P cap v b idx).cellCount =
      max b.cellCount (placeWrite P cap v b idx).len := by
  unfold placeWrite
  rw [ccFix_cellCount, ccFix_len]; simp

theorem placeWrite_layout (P : TagPolicy) (cap : Nat) (v : Val) (b : Bucket) (idx : Nat) :
    (placeWrite P cap v b idx).layout = b.layout := by
  unfold placeWrite; simp

theorem le_placeWrite_len (P : TagPolicy) (cap : Nat) (v : Val) (b : Bucket) (idx : Nat) :
    b.len ≤ (placeWrite P cap v b idx).len := by
  rw [placeWrite_len]; split <;> omega

/-! ### Bucket invariants

`LenLeCC` and `RemovedOk` hold in every reachable bucket state and are
preserved by every operation; `RemovedLtCC` and `VirginTags` are additionally
preserved by every operation except `shrink_to_fit`. -/

/-- The high-water mark never exceeds the initialized-cell count. -/
def LenLeCC (b : Bucket) : Prop := b.len ≤ b.cellCount

/-- A removed (tombstoned) cell is never banned: `remove_unchecked` checks
`is_banned_cell` before inserting into `removed`, and the tag is untouched
while the index stays there. -/
def RemovedOk (P : TagPolicy) (b : Bucket) : Prop :=
  ∀ j ∈ b.removed, P.isOver ((b.mem j).tag) = false

/-- Removed indices point at initialized cells. -/
def RemovedLtCC (b : Bucket) : Prop := ∀ j ∈ b.removed, j < b.cellCount

/-- Never-initialized cells carry the default tag in the model. -/
def VirginTags (b : Bucket) : Prop := ∀ j, b.cellCount ≤ j → (b.mem j).tag = 0

/-- `LenLeCC` together with `RemovedOk`: preserved by every operation. -/
def WInv (P : TagPolicy) (b : Bucket) : Prop := LenLeCC b ∧ RemovedOk P b

/-- The invariant pack preserved by every operation except `shrink_to_fit`. -/
def InvC (P : TagPolicy) (b : Bucket) : Prop :=
  LenLeCC b ∧ RemovedOk P b ∧ RemovedLtCC b ∧ VirginTags b

/-! ### Characterization of `place` -/

/-- When `removed` is non-empty and its chosen element is not banned, the
place loop writes there immediately. -/
theorem place_head (P : TagPolicy) (cap : Nat) (v : Val) (b : Bucket) (j : Nat)
    (rest : List Nat) (hrem : b.removed = j :: rest) (hP0 : P.isOver 0 = false)
    (hok : RemovedOk P b) :
    place P cap v b = (placeWrite P cap v b j, j, tagval b j) := by
  have hjmem : j ∈ b.removed := by rw [hrem]; exact List.mem_cons_self j rest
  have hj : P.isOver (tagval b j) = false := by
    unfold tagval; split
    · exact hok j hjmem
    · exact hP0
  have hj2 : ¬(j < b.cellCount ∧ P.isOver ((b.mem j).tag) = true) := by
    rintro ⟨hlt, hover⟩
    have he : tagval b j = (b.mem j).tag := by unfold tagval; simp [hlt]
    rw [he, hover] at hj
    exact Bool.noConfusion hj
  have hni : nextIndex b = j := by unfold nextIndex; rw [hrem]
  unfold place
  rw [hni, placeLoop]
  simp only [growIf_mem, growIf_cellCount, tagval_growIf]
  rw [if_neg hj2, if_neg (by rw [hj]; exact Bool.false_ne_true)]
  unfold placeWrite
  rw [tagval_growIf]

/-- When `removed` is empty, the loop scans from `len` upward, keeps
`len = idx`, and (with enough fuel and a non-exhausted default tag) ends in
the write branch at some index `k ≥ len`. -/
theorem placeLoop_scan (P : TagPolicy) (cap : Nat) (v : Val)
    (hP0 : P.isOver 0 = false) :
    ∀ fuel b idx, b.removed = [] → idx = b.len → b.len ≤ b.cellCount →
      b.cellCount + 1 ≤ fuel + idx →
      ∃ k b0, idx ≤ k ∧ b0.removed = [] ∧ b0.len = k ∧
        b0.cellCount = b.cellCount ∧ b0.mem = b.mem ∧ b0.layout = b.layout ∧
        P.isOver (tagval b0 k) = false ∧
        placeLoop P cap v fuel b idx = (placeWrite P cap v b0 k, k, tagval b0 k) := by
  intro fuel
  induction fuel with
  | zero => intro b idx hrem hidx hlc hfuel; omega
  | succ fuel ih =>
    intro b idx hrem hidx hlc hfuel
    rw [placeLoop]
    simp only [growIf_mem, growIf_cellCount, tagval_growIf]
    by_cases h1 : idx < b.cellCount ∧ P.isOver ((b.mem idx).tag) = true
    · rw [if_pos h1]
      have hb' :
          ∃ k b0, idx + 1 ≤ k ∧ b0.removed = [] ∧ b0.len = k ∧
            b0.cellCount = (bumpLen (growIf b (idx / cap)) idx).cellCount ∧
            b0.mem = (bumpLen (growIf b (idx / cap)) idx).mem ∧
            b0.layout = (bumpLen (growIf b (idx / cap)) idx).layout ∧
            P.isOver (tagval b0 k) = false ∧
            placeLoop P cap v fuel (bumpLen (growIf b (idx / cap)) idx) (idx + 1) =
              (placeWrite P cap v b0 k, k, tagval b0 k) := by
        apply ih
        · simp [hrem]
        · rw [bumpLen_len]; simp [growIf_len, hidx]
        · rw [bumpLen_len]; simp [growIf_len, growIf_cellCount, hidx]; omega
        · simp [growIf_cellCount]; omega
      obtain ⟨k, b0, hk, h2, h3, h4, h5, h6, h7, h8⟩ := hb'
      exact ⟨k, b0, by omega, h2, h3, by simpa using h4, by simpa using h5,
        by simpa using h6, h7, h8⟩
    · rw [if_neg h1]
      have htv : P.isOver (tagval b idx) = false := by
        unfold tagval; split
        · rename_i hlt
          rcases Bool.eq_false_or_eq_true (P.isOver ((b.mem idx).tag)) with h | h
          · exact absurd ⟨hlt, h⟩ h1
          · exact h
        · exact hP0
      rw [if_neg (by rw [htv]; exact Bool.false_ne_true)]
      exact ⟨idx, b, le_refl idx, hrem, hidx.symm, rfl, rfl, rfl, htv,
        by unfold placeWrite; rw [tagval_growIf]⟩

/-- Full characterization of `Bucket::place_unchecked` on states satisfying
the always-preserved invariants: the result is a write at some index `k`
(the chosen removed index when `removed` is non-empty, an index `≥ len`
otherwise), and the returned tag is the pre-increment tag read at `k`. -/
theorem place_spec (P : TagPolicy) (cap : Nat) (v : Val) (b : Bucket)
    (hP0 : P.isOver 0 = false) (hlc : LenLeCC b) (hok : RemovedOk P b) :
    ∃ k b0,
      place P cap v b = (placeWrite P cap v b0 k, k, tagval b k) ∧
      P.isOver (tagval b k) = false ∧
      b0.removed = b.removed ∧ b0.cellCount = b.cellCount ∧ b0.mem = b.mem ∧
      b0.layout = b.layout ∧ b.len ≤ b0.len ∧
      (b.removed = [] → b.len ≤ k ∧ b0.len = k) ∧
      (∀ j rest, b.removed = j :: rest → k = j ∧ b0 = b) := by
  cases hrem : b.removed with
  | nil =>
    have h := placeLoop_scan P cap v hP0 (b.cellCount + 1) b (nextIndex b) hrem
      (by unfold nextIndex; rw [hrem]) hlc (by omega)
    obtain ⟨k, b0, hk, h2, h3, h4, h5, h6, h7, h8⟩ := h
    have hnib : nextIndex b = b.len := by unfold nextIndex; rw [hrem]
    rw [hnib] at hk
    have htv : tagval b0 k = tagval b k := by unfold tagval; rw [h4, h5]
    refine ⟨k, b0, ?_, ?_, h2, h4, h5, h6, ?_, ?_, ?_⟩
    · unfold place; rw [h8, htv]
    · rw [← htv]; exact h7
    · rw [h3]; exact hk
    · intro _; exact ⟨hk, h3⟩
    · intro j rest hjr; exact List.noConfusion hjr
  | cons j rest =>
    have h := place_head P cap v b j rest hrem hP0 hok
    refine ⟨j, b, ?_, ?_, hrem, rfl, rfl, rfl, le_refl _, ?_, ?_⟩
    · exact h
    · unfold tagval; split
      · exact hok j (by rw [hrem]; exact List.mem_cons_self j rest)
      · exact hP0
    · intro he; exact List.noConfusion he
    · intro j' rest' hjr
      injection hjr with hjj _
      exact ⟨hjj, rfl⟩

/-! ### Operation sequences -/

/-- The mutating bucket operations, as data, to express temporal claims
("until one of ... has executed") over arbitrary interleavings. -/
inductive BOp where
  | doPlace (v : Val)
  | doRemove (i : Nat)
  | doClear
  | doReset
  | doShrink
  deriving DecidableEq

/-- Run one operation, keeping the state and discarding returned values. -/
def applyOp (P : TagPolicy) (cap : Nat) : BOp → Bucket → Bucket
  | .doPlace v, b => (place P cap v b).1
  | .doRemove i, b => (removeOp P cap i b).1
  | .doClear, b => (clearOp P cap b).1
  | .doReset, b => (resetOp P cap b).1
  | .doShrink, b => shrinkToFit cap b

/-- Run a sequence of operations left to right. -/
def runOps (P : TagPolicy) (cap : Nat) (ops : List BOp) (b : Bucket) : Bucket :=
  ops.foldl (fun s o => applyOp P cap o s) b

/-- The operations that claim C1 allows between placement and invalidation
of the id `(i, g)`: anything except `remove(i)`, `clear()` and `reset()`. -/
def C1Allowed (i : Nat) : BOp → Prop
  | .doRemove j => j ≠ i
  | .doClear => False
  | .doReset => False
  | _ => True

/-- The operations admitted by the amended claim C6: anything except
`reset()` and `shrink_to_fit()`. -/
def C6Allowed : BOp → Prop
  | .doReset => False
  | .doShrink => False
  | _ => True

theorem resetLoop_state (P : TagPolicy) :
    ∀ n b, ((resetLoop P n b).1).len = b.len ∧
      ((resetLoop P n b).1).cellCount = b.cellCount ∧
      ((resetLoop P n b).1).removed = b.removed := by
  intro n
  induction n with
  | zero => intro b; exact ⟨rfl, rfl, rfl⟩
  | succ n ih =>
    intro b
    have h := ih { b with mem := fun j => if j = n then ⟨0, (b.mem n).data⟩ else b.mem j }
    simpa [resetLoop] using h

/-! ### Invariant preservation -/

theorem winv_place (P : TagPolicy) (cap : Nat) (v : Val) (b : Bucket)
    (hP0 : P.isOver 0 = false) (hwi : WInv P b) : WInv P (place P cap v b).1 := by
  obtain ⟨k, b0, heq, hov, hrem0, hcc0, hmem0, hlay0, hlen0, hnil, hcons⟩ :=
    place_spec P cap v b hP0 hwi.1 hwi.2
  rw [heq]
  constructor
  · show (placeWrite P cap v b0 k).len ≤ (placeWrite P cap v b0 k).cellCount
    rw [placeWrite_cellCount]
    exact le_max_right _ _
  · intro j hj
    rw [placeWrite_removed] at hj
    have hjmem : j ∈ b0.removed ∧ j ≠ k := by
      have := List.mem_filter.mp hj
      exact ⟨this.1, by simpa using this.2⟩
    rw [placeWrite_mem]
    simp only [if_neg hjmem.2]
    rw [hmem0]
    exact hwi.2 j (hrem0 ▸ hjmem.1)

theorem winv_remove (P : TagPolicy) (cap : Nat) (i : Nat) (b : Bucket)
    (hwi : WInv P b) : WInv P (removeOp P cap i b).1 := by
  unfold removeOp
  split
  · exact hwi
  · by_cases hlast : i = b.len - 1
    · simp only [if_pos hlast]
      split
      · exact ⟨Nat.le_trans (Nat.sub_le _ _) hwi.1, hwi.2⟩
      · rename_i hover
        refine ⟨Nat.le_trans (Nat.sub_le _ _) hwi.1, ?_⟩
        intro j hj
        rcases List.mem_cons.mp hj with h | h
        · subst h; simpa using hover
        · exact hwi.2 j h
    · simp only [if_neg hlast]
      split
      · exact hwi
      · rename_i hover
        refine ⟨hwi.1, ?_⟩
        intro j hj
        rcases List.mem_cons.mp hj with h | h
        · subst h; simpa using hover
        · exact hwi.2 j h

theorem winv_clear (P : TagPolicy) (cap : Nat) (b : Bucket)
    (hwi : WInv P b) : WInv P (clearOp P cap b).1 := by
  unfold clearOp
  split
  · exact hwi
  · exact ⟨Nat.zero_le _, hwi.2⟩

theorem winv_reset (P : TagPolicy) (cap : Nat) (b : Bucket)
    (hwi : WInv P b) : WInv P (resetOp P cap b).1 := by
  unfold resetOp
  split
  · exact hwi
  · have h := resetLoop_state P b.len b
    refine ⟨?_, ?_⟩
    · show ((resetLoop P b.len b).1).len ≤ ((resetLoop P b.len b).1).cellCount
      rw [h.1, h.2.1]; exact hwi.1
    · intro j hj
      exact absurd hj (by simp)

theorem winv_shrink (P : TagPolicy) (cap : Nat) (b : Bucket)
    (hwi : WInv P b) : WInv P (shrinkToFit cap b) := by
  exact ⟨Nat.le_refl _, hwi.2⟩

theorem winv_applyOp (P : TagPolicy) (cap : Nat) (o : BOp) (b : Bucket)
    (hP0 : P.isOver 0 = false) (hwi : WInv P b) : WInv P (applyOp P cap o b) := by
  cases o with
  | doPlace v => exact winv_place P cap v b hP0 hwi
  | doRemove i => exact winv_remove P cap i b hwi
  | doClear => exact winv_clear P cap b hwi
  | doReset => exact winv_reset P cap b hwi
  | doShrink => exact winv_shrink P cap b hwi

/-! ### `contains` is stable under non-invalidating operations -/

/-- Unpacked form of `contains ... = true`. -/
theorem contains_iff (P : TagPolicy) (cap : Nat) (i : Nat) (b : Bucket) :
    contains P cap i b = true ↔
      i < b.len ∧ P.isOver ((b.mem i).tag) = false ∧ i ∉ b.removed := by
  unfold contains
  split
  · rename_i h
    constructor
    · intro hf; exact Bool.noConfusion hf
    · rintro ⟨h1, -, -⟩; omega
  · rename_i h
    rw [Bool.and_eq_true, Bool.not_eq_true', Bool.not_eq_true']
    constructor
    · rintro ⟨h1, h2⟩
      exact ⟨by omega, h1, by simpa using h2⟩
    · rintro ⟨-, h1, h2⟩
      exact ⟨h1, by simpa using h2⟩

theorem contains_place (P : TagPolicy) (cap : Nat) (v : Val) (i : Nat) (b : Bucket)
    (hP0 : P.isOver 0 = false) (hwi : WInv P b)
    (hc : contains P cap i b = true) : contains P cap i (place P cap v b).1 = true := by
  obtain ⟨hilen, hitag, hirem⟩ := (contains_iff P cap i b).mp hc
  obtain ⟨k, b0, heq, hov, hrem0, hcc0, hmem0, hlay0, hlen0, hnil, hcons⟩ :=
    place_spec P cap v b hP0 hwi.1 hwi.2
  have hki : k ≠ i := by
    cases hr : b.removed with
    | nil => have := (hnil hr).1; omega
    | cons j rest =>
      have hkj := (hcons j rest hr).1
      intro hk
      exact hirem (by rw [hr, ← hkj, hk]; exact List.mem_cons_self i _)
  rw [heq]
  apply (contains_iff P cap i _).mpr
  refine ⟨?_, ?_, ?_⟩
  · calc i < b.len := hilen
      _ ≤ b0.len := hlen0
      _ ≤ (placeWrite P cap v b0 k).len := le_placeWrite_len P cap v b0 k
  · rw [placeWrite_mem]
    simp only [if_neg (show ¬ i = k from fun h => hki h.symm)]
    rw [hmem0]
    exact hitag
  · rw [placeWrite_removed]
    intro hmem
    exact hirem (hrem0 ▸ (List.mem_filter.mp hmem).1)

theorem contains_remove (P : TagPolicy) (cap : Nat) (j i : Nat) (b : Bucket)
    (hji : j ≠ i) (hc : contains P cap i b = true) :
    contains P cap i (removeOp P cap j b).1 = true := by
  obtain ⟨hilen, hitag, hirem⟩ := (contains_iff P cap i b).mp hc
  unfold removeOp
  split
  · exact hc
  · rename_i hguard
    have hjlen : j < b.len := by
      rcases not_or.mp hguard with ⟨h1, -⟩
      omega
    by_cases hlast : j = b.len - 1
    · simp only [if_pos hlast]
      have hlen2 : i < b.len - 1 := by omega
      split
      · exact (contains_iff P cap i _).mpr ⟨hlen2, hitag, hirem⟩
      · apply (contains_iff P cap i _).mpr
        refine ⟨hlen2, hitag, ?_⟩
        intro hmem
        rcases List.mem_cons.mp hmem with h | h
        · exact hji h.symm
        · exact hirem h
    · simp only [if_neg hlast]
      split
      · exact hc
      · apply (contains_iff P cap i _).mpr
        refine ⟨hilen, hitag, ?_⟩
        intro hmem
        rcases List.mem_cons.mp hmem with h | h
        · exact hji h.symm
        · exact hirem h

theorem contains_shrink (P : TagPolicy) (cap : Nat) (i : Nat) (b : Bucket) :
    contains P cap i (shrinkToFit cap b) = contains P cap i b := rfl

theorem contains_applyOp (P : TagPolicy) (cap : Nat) (o : BOp) (i : Nat) (b : Bucket)
    (hP0 : P.isOver 0 = false) (hwi : WInv P b) (hall : C1Allowed i o)
    (hc : contains P cap i b = true) : contains P cap i (applyOp P cap o b) = true := by
  cases o with
  | doPlace v => exact contains_place P cap v i b hP0 hwi hc
  | doRemove j => exact contains_remove P cap j i b hall hc
  | doClear => exact absurd hall (by simp [C1Allowed])
  | doReset => exact absurd hall (by simp [C1Allowed])
  | doShrink => exact hc

theorem contains_runOps (P : TagPolicy) (cap : Nat) (i : Nat)
    (hP0 : P.isOver 0 = false) :
    ∀ ops b, WInv P b → contains P cap i b = true →
      (∀ o ∈ ops, C1Allowed i o) →
      contains P cap i (runOps P cap ops b) = true := by
  intro ops
  induction ops with
  | nil => intro b _ hc _; exact hc
  | cons o ops ih =>
    intro b hwi hc hall
    have h1 := contains_applyOp P cap o i b hP0 hwi (hall o (List.mem_cons_self o ops)) hc
    have h2 := winv_applyOp P cap o b hP0 hwi
    exact ih (applyOp P cap o b) h2 h1 (fun o' ho' => hall o' (List.mem_cons_of_mem o ho'))

theorem listContains_eq_false {l : List Nat} {a : Nat} (h : a ∉ l) :
    l.contains a = false := by
  rcases Bool.eq_false_or_eq_true (l.contains a) with hc | hc
  · exact absurd (List.mem_of_elem_eq_true hc) h
  · exact hc

/-- `remove_unchecked` on a live index: the success case, field by field. -/
theorem removeOp_succ (P : TagPolicy) (cap : Nat) (i : Nat) (b : Bucket)
    (hlen : i < b.len) (hnm : b.removed.contains i = false)
    (hover : P.isOver ((b.mem i).tag) = false) :
    (removeOp P cap i b).2 = (b.mem i).data ∧
    (removeOp P cap i b).1.removed = i :: b.removed ∧
    (removeOp P cap i b).1.mem = b.mem ∧
    (removeOp P cap i b).1.len = (if i = b.len - 1 then b.len - 1 else b.len) ∧
    (removeOp P cap i b).1.cellCount = b.cellCount := by
  have hguard : ¬(b.len ≤ i ∨ b.removed.contains i = true) := by
    rintro (h | h)
    · omega
    · rw [hnm] at h; exact Bool.noConfusion h
  have hb1 : (if i = b.len - 1 then { b with len := b.len - 1 } else b).mem = b.mem := by
    split <;> rfl
  have hb2 : (if i = b.len - 1 then { b with len := b.len - 1 } else b).removed
      = b.removed := by
    split <;> rfl
  have hb3 : (if i = b.len - 1 then { b with len := b.len - 1 } else b).len =
      (if i = b.len - 1 then b.len - 1 else b.len) := by
    split <;> rfl
  have hb4 : (if i = b.len - 1 then { b with len := b.len - 1 } else b).cellCount
      = b.cellCount := by
    split <;> rfl
  unfold removeOp
  rw [if_neg hguard]
  simp only [hb1]
  rw [if_neg (show ¬ P.isOver ((b.mem i).tag) = true by simp [hover])]
  exact ⟨rfl, by simp only [hb2], rfl, by simp only [hb3], by simp only [hb4]⟩

/-- `get_ucnhecked` on a live index returns the cell data. -/
theorem getOp_live (P : TagPolicy) (cap : Nat) (i : Nat) (b : Bucket)
    (hlen : i < b.len) (hnm : b.removed.contains i = false)
    (hover : P.isOver ((b.mem i).tag) = false) :
    getOp P cap i b = (b.mem i).data := by
  have hguard : ¬(b.len ≤ i ∨ b.removed.contains i = true) := by
    rintro (h | h)
    · omega
    · rw [hnm] at h
      exact Bool.noConfusion h
  unfold getOp
  rw [if_neg hguard, if_neg (show ¬ P.isOver ((b.mem i).tag) = true by simp [hover])]

/-- `get_ucnhecked` on a removed index returns none. -/
theorem getOp_removed (P : TagPolicy) (cap : Nat) (i : Nat) (b : Bucket)
    (hm : b.removed.contains i = true) : getOp P cap i b = none := by
  unfold getOp
  rw [if_pos (Or.inr hm)]

/-- `contains` on a removed index is false. -/
theorem contains_removed (P : TagPolicy) (cap : Nat) (i : Nat) (b : Bucket)
    (hm : b.removed.contains i = true) : contains P cap i b = false := by
  unfold contains
  split
  · rfl
  · rw [hm]; simp

/-! ### Concrete scenario states -/

/-- A concrete layout for scenario states (`size`/`align` of some cell type). -/
def L0 : Layout := ⟨8, 4⟩

/-- The state reached by `place 10; place 20; place 30; remove 1; clear`
on a fresh bucket with block capacity 4: `len = 0`, `cell_count = 3`,
`removed = [1]`.  A subsequent place reuses index 1 without restoring
`len`, so the returned id is immediately dead. -/
def cexClearState : Bucket :=
  (clearOp Unique32 4 (removeOp Unique32 4 1
    (place Unique32 4 30 (place Unique32 4 20 (place Unique32 4 10
      (Bucket.new L0)).1).1).1).1).1

/-! ### Claim C1 -/

/-- Claim C1, counterexample: after `place 10; place 20; place 30;
remove(1); clear()`, a further `place 40` returns the id `(1, 1)` — but
`contains` on that freshly returned id is already `false` (the place reused
removed index `1 > len = 0` without restoring `len`), refuting both the
general statement and in particular the clause that an id returned by place
immediately after `clear()` is contained. -/
theorem c1_counterexample :
    (place Unique32 4 40 cexClearState).2.1 = 1 ∧
    contains Unique32 4 1 (place Unique32 4 40 cexClearState).1 = false := by
  constructor
  · rfl
  · rfl

/-- Claim C1 (amended): for an id `(i, g)` returned by `place`, provided the
placement left `i` below `len` and the generation written at `i`
(`next g`) is not exhausted, `contains i` is true from the moment of
placement and stays true across any sequence of further operations that
contains no `remove(i)`, no `clear()` and no `reset()` (shrink, other
removes and other placements are all allowed). -/
theorem c1_amended (P : TagPolicy) (cap : Nat) (hP0 : P.isOver 0 = false)
    (b : Bucket) (hwi : WInv P b) (v : Val) (b₀ : Bucket) (i g : Nat)
    (hplace : place P cap v b = (b₀, i, g))
    (hlen : i < b₀.len) (htag : P.isOver (P.next g) = false)
    (ops : List BOp) (hops : ∀ o ∈ ops, C1Allowed i o) :
    contains P cap i (runOps P cap ops b₀) = true := by
  obtain ⟨k, b0, heq, hov, hrem0, hcc0, hmem0, hlay0, hlen0, hnil, hcons⟩ :=
    place_spec P cap v b hP0 hwi.1 hwi.2
  rw [hplace] at heq
  injection heq with h1 h2
  injection h2 with h2 h3
  subst h1
  subst h2
  have htv : tagval b0 i = tagval b i := by unfold tagval; rw [hcc0, hmem0]
  have hc0 : contains P cap i (placeWrite P cap v b0 i) = true := by
    apply (contains_iff P cap i _).mpr
    refine ⟨hlen, ?_, ?_⟩
    · rw [placeWrite_mem]
      simp only [if_pos rfl]
      rw [htv, ← h3]
      exact htag
    · rw [placeWrite_removed]
      intro hmem
      have := (List.mem_filter.mp hmem).2
      simp at this
  have hwi0 : WInv P (placeWrite P cap v b0 i) := by
    have h := winv_place P cap v b hP0 hwi
    rw [hplace] at h
    exact h
  exact contains_runOps P cap i hP0 ops _ hwi0 hc0 hops

/-- Witness for the amended C1 at a concrete input: place `5` into a fresh
bucket, then place another value, remove another index and shrink; the
original id `(0, 0)` is still contained. -/
theorem c1_amended_witness :
    contains Unique32 4 0
      (runOps Unique32 4 [BOp.doPlace 6, BOp.doRemove 1, BOp.doShrink]
        (place Unique32 4 5 (Bucket.new L0)).1) = true := by
  apply c1_amended Unique32 4 (by decide) (Bucket.new L0)
    ⟨Nat.le_refl 0, fun j hj => absurd hj (List.not_mem_nil j)⟩
    5 (place Unique32 4 5 (Bucket.new L0)).1 0 0 rfl (by decide) (by decide)
  intro o ho
  fin_cases ho <;> simp [C1Allowed]

/-! ### Claim C2 -/

/-- Claim C2, counterexample: after `place 10; place 20; place 30;
remove(1); clear()`, a further `place 40` returns the id `(1, 1)`, yet an
immediate `get` on it yields none (not a reference to `40`) and an immediate
`remove` yields none (not `Some 40`), refuting the round-trip claim. -/
theorem c2_counterexample :
    (place Unique32 4 40 cexClearState).2.1 = 1 ∧
    getOp Unique32 4 1 (place Unique32 4 40 cexClearState).1 = none ∧
    (removeOp Unique32 4 1 (place Unique32 4 40 cexClearState).1).2 = none := by
  refine ⟨rfl, rfl, rfl⟩

/-- Claim C2 (amended): for a value `v` placed as id `(i, g)`, provided the
placement left `i` below `len` and the written generation `next g` is not
exhausted, an immediate `get` yields `v`, an immediate `remove` yields
`Some v`, and after that remove `get` yields none and `contains` is false. -/
theorem c2_amended (P : TagPolicy) (cap : Nat) (hP0 : P.isOver 0 = false)
    (b : Bucket) (hwi : WInv P b) (v : Val) (b₀ : Bucket) (i g : Nat)
    (hplace : place P cap v b = (b₀, i, g))
    (hlen : i < b₀.len) (htag : P.isOver (P.next g) = false) :
    getOp P cap i b₀ = some v ∧
    (removeOp P cap i b₀).2 = some v ∧
    getOp P cap i (removeOp P cap i b₀).1 = none ∧
    contains P cap i (removeOp P cap i b₀).1 = false := by
  obtain ⟨k, b0, heq, hov, hrem0, hcc0, hmem0, hlay0, hlen0, hnil, hcons⟩ :=
    place_spec P cap v b hP0 hwi.1 hwi.2
  rw [hplace] at heq
  injection heq with h1 h2
  injection h2 with h2 h3
  subst h1
  subst h2
  have htv : tagval b0 i = tagval b i := by unfold tagval; rw [hcc0, hmem0]
  have hmemi : (placeWrite P cap v b0 i).mem i = ⟨P.next g, some v⟩ := by
    rw [placeWrite_mem]
    show (if i = i then (⟨P.next (tagval b0 i), some v⟩ : Cell) else b0.mem i) = _
    rw [if_pos rfl, htv, ← h3]
  have hremi : (placeWrite P cap v b0 i).removed.contains i = false := by
    apply listContains_eq_false
    rw [placeWrite_removed]
    intro hmem
    have := (List.mem_filter.mp hmem).2
    simp at this
  have htagB : P.isOver (((placeWrite P cap v b0 i).mem i).tag) = false := by
    rw [hmemi]; exact htag
  obtain ⟨hr1, hr2, hr3, hr4, -⟩ :=
    removeOp_succ P cap i (placeWrite P cap v b0 i) hlen hremi htagB
  have hrc : (removeOp P cap i (placeWrite P cap v b0 i)).1.removed.contains i = true := by
    rw [hr2]; exact List.elem_eq_true_of_mem (List.mem_cons_self _ _)
  refine ⟨?_, ?_, ?_, ?_⟩
  · rw [getOp_live P cap i _ hlen hremi htagB, hmemi]
  · rw [hr1, hmemi]
  · exact getOp_removed P cap i _ hrc
  · exact contains_removed P cap i _ hrc

/-- Witness for the amended C2 at a concrete input: the round trip on a
fresh bucket with value `5`. -/
theorem c2_amended_witness :
    getOp Unique32 4 0 (place Unique32 4 5 (Bucket.new L0)).1 = some 5 ∧
    (removeOp Unique32 4 0 (place Unique32 4 5 (Bucket.new L0)).1).2 = some 5 := by
  have h := c2_amended Unique32 4 (by decide) (Bucket.new L0)
    ⟨Nat.le_refl 0, fun j hj => absurd hj (List.not_mem_nil j)⟩
    5 (place Unique32 4 5 (Bucket.new L0)).1 0 0 rfl (by decide) (by decide)
  exact ⟨h.1, h.2.1⟩

/-! ### The token bucket of `src/token_bucket.rs`

Its tag type is the `Unique32` of `src/params.rs`: a `u32` whose top bit is
the removed flag, saturating at `2^31 - 1`, with `2^31` the locked value.
The u32 bit operations are embedded on `Nat`. -/

/-- `Unique32::last()` of `params.rs`: `2^31 - 1`. -/
def TOKLAST : Nat := 2147483647

/-- The removed-flag bit: `1 << 31`. -/
def TOKBIT : Nat := 2147483648

/-- `next`: `min(self.0 + 1, last)`. -/
def tokNext (x : Nat) : Nat := min (x + 1) TOKLAST

/-- `is_removed`: `self.0 & (1 << 31) != 0`. -/
def tokIsRemoved (x : Nat) : Bool := x.testBit 31

/-- `set_removed`: set or clear the top bit. -/
def tokSetRemoved (x : Nat) (removed : Bool) : Nat :=
  if removed then x ||| TOKBIT else x &&& (TOKBIT - 1)

/-- `is_locked`: `self.0 == 1 << 31`. -/
def tokIsLocked (x : Nat) : Bool := decide (x = TOKBIT)

/-- `mark_locked`: `self.0 = 1 << 31`. -/
def tokMarkLocked : Nat := TOKBIT

/-- `TokenData`: the union of a location and a free-list link. -/
inductive TokenData where
  | location (bucketIndex inbucketIndex : Nat)
  | freeIndex (i : Nat)
  deriving DecidableEq

/-- Reading `data.free_token_index`.  Reading the union through the wrong
member is unreachable under the free-list discipline (`debug_assert`ed in
the source); the model returns `0` there. -/
def freeIndexOf : TokenData → Nat
  | .freeIndex i => i
  | .location _ _ => 0

/-- `Token { tag, data }`. -/
structure Token where
  tag : Nat
  data : TokenData
  deriving DecidableEq

/-- `TokenBucket { tokens, free_cursor }`. -/
structure TokenBucket where
  tokens : List Token
  freeCursor : Option Nat
  deriving DecidableEq

/-- `TokenBucket::new()`. -/
def tbNew : TokenBucket := ⟨[], none⟩

/-- `TokenBucket::create(bucket_index, inbucket_index) -> (token_index, tag)`:
pop the free list when non-empty (clearing the removed flag and overwriting
the location), else push a fresh default-tag token. -/
def tbCreate (bi ibi : Nat) (tb : TokenBucket) : TokenBucket × Nat × Nat :=
  match tb.freeCursor with
  | some free =>
    match tb.tokens.get? free with
    | some token =>
      let nextFree := freeIndexOf token.data
      let fc := if free ≠ nextFree then some nextFree else none
      let tag := tokSetRemoved token.tag false
      ({ tokens := tb.tokens.set free ⟨tag, .location bi ibi⟩, freeCursor := fc }, free, tag)
    | none => (tb, 0, 0)
  | none =>
    ({ tokens := tb.tokens ++ [⟨0, .location bi ibi⟩], freeCursor := tb.freeCursor },
      tb.tokens.length, 0)

/-- `TokenBucket::mark_removed(token_index)`: advance the tag; if saturated,
lock the token, else set the removed flag and push the token on the free
list. -/
def tbMarkRemoved (i : Nat) (tb : TokenBucket) : TokenBucket :=
  match tb.tokens.get? i with
  | some token =>
    let tag := tokNext token.tag
    if tag = token.tag then
      { tb with tokens := tb.tokens.set i ⟨tokMarkLocked, token.data⟩ }
    else
      let nf := match tb.freeCursor with
        | some f => f
        | none => i
      { tokens := tb.tokens.set i ⟨tokSetRemoved tag true, .freeIndex nf⟩,
        freeCursor := some i }
  | none => tb

/-- `TokenBucket::contains(token_index, tag)`: the stored token exists, its
tag equals the witness, and it is neither removed nor locked. -/
def tbContains (i w : Nat) (tb : TokenBucket) : Bool :=
  match tb.tokens.get? i with
  | some token => w == token.tag && !tokIsRemoved token.tag && !tokIsLocked token.tag
  | none => false

/-! ### Claim C3 -/

/-- The bucket after `id1 = place 100; remove id1; id2 = place 200`, where
the second placement reuses index 0. -/
def c3Bucket : Bucket × Nat × Nat :=
  place Unique32 4 200 (removeOp Unique32 4 0 (place Unique32 4 100 (Bucket.new L0)).1).1

/-- The token bucket after `create; mark_removed 0; create` (the token-level
trace of the same scenario). -/
def c3Tokens : TokenBucket × Nat × Nat :=
  tbCreate 0 0 (tbMarkRemoved 0 (tbCreate 0 0 tbNew).1)

/-- Claim C3, counterexample: in the scenario `id1 = place(A); remove(id1);
id2 = place(B)` at the same index 0 (witnesses 0 and 1), `Bucket::get` with
the stale `id1` returns `Some(&B)` — not none — and `Bucket::contains`
returns true: neither takes the generation witness, so a stale id
spuriously succeeds, contradicting the claim. -/
theorem c3_counterexample :
    (place Unique32 4 100 (Bucket.new L0)).2 = (0, 0) ∧
    c3Bucket.2 = (0, 1) ∧
    getOp Unique32 4 0 c3Bucket.1 = some 200 ∧
    contains Unique32 4 0 c3Bucket.1 = true := by
  refine ⟨rfl, rfl, rfl, rfl⟩

/-- Claim C3 (amended): in the same scenario, the bucket-level `contains`
and `get` consult only the index, so the stale id1 spuriously succeeds
(`get` yields `Some(&B)`, `contains` yields true), while the token-level
`TokenBucket::contains` does compare the witness: it rejects the stale
witness 0 and accepts the current witness 1.  `get(id2)` yields `Some(&B)`
as the claim states. -/
theorem c3_amended :
    getOp Unique32 4 0 c3Bucket.1 = some 200 ∧
    contains Unique32 4 0 c3Bucket.1 = true ∧
    c3Tokens.2 = (0, 1) ∧
    tbContains 0 0 c3Tokens.1 = false ∧
    tbContains 0 1 c3Tokens.1 = true := by
  refine ⟨rfl, rfl, ?_, ?_, ?_⟩ <;> decide

/-! ### Claim C4 -/

/-- Claim C4: the claim says `reset()` leaves an empty Storage (contains
false for every id, default generations, empty removed set).  The code of
`Bucket::reset` is wrong on two counts, shown at concrete inputs.  After
`place 7; reset`: the reset loop runs the drop glue on the value (trace
`[7]`) but never zeroes `len`, so `contains 0` is still true and `get 0`
still hands out the already-dropped value — a use-after-free / double-drop
hazard contradicting the code's own single-drop discipline.  After
`place 7; remove 0; reset`: `len = 0` triggers the early return, so
`removed` stays `[0]` and the stored generation stays `1`, not the
default. -/
theorem c4_code_bug :
    (resetOp Unique32 4 (place Unique32 4 7 (Bucket.new L0)).1).2 = [7] ∧
    (resetOp Unique32 4 (place Unique32 4 7 (Bucket.new L0)).1).1.len = 1 ∧
    contains Unique32 4 0 (resetOp Unique32 4 (place Unique32 4 7 (Bucket.new L0)).1).1
      = true ∧
    getOp Unique32 4 0 (resetOp Unique32 4 (place Unique32 4 7 (Bucket.new L0)).1).1
      = some 7 ∧
    (resetOp Unique32 4
      (removeOp Unique32 4 0 (place Unique32 4 7 (Bucket.new L0)).1).1).1.removed = [0] ∧
    ((resetOp Unique32 4
      (removeOp Unique32 4 0 (place Unique32 4 7 (Bucket.new L0)).1).1).1.mem 0).tag
      = 1 := by
  refine ⟨rfl, rfl, rfl, rfl, rfl, rfl⟩

/-! ### Claim C7 -/

/-- Claim C7: the claim says `Bucket::drop` equals `clear` followed by
deallocating every block, leaking nothing, including when `len == 0` with
blocks allocated.  The code early-returns when `clear` reports `len == 0`:
after `place 5; remove 0` the bucket has `len = 0` and one allocated block,
`clear` returns false, and `drop` leaves the block allocated — a leak. -/
theorem c7_code_bug :
    (removeOp Unique32 4 0 (place Unique32 4 5 (Bucket.new L0)).1).1.len = 0 ∧
    (removeOp Unique32 4 0 (place Unique32 4 5 (Bucket.new L0)).1).1.blocks = 1 ∧
    (clearOp Unique32 4
      (removeOp Unique32 4 0 (place Unique32 4 5 (Bucket.new L0)).1).1).2.1 = false ∧
    (dropOp Unique32 4
      (removeOp Unique32 4 0 (place Unique32 4 5 (Bucket.new L0)).1).1).1.blocks = 1 := by
  refine ⟨rfl, rfl, rfl, rfl⟩

/-! ### Claim C10 -/

theorem mem_clearDrops (P : TagPolicy) (b : Bucket) :
    ∀ n j v, j < n → P.isOver ((b.mem j).tag) = false →
      b.removed.contains j = false → (b.mem j).data = some v →
      v ∈ clearDrops P b n := by
  intro n
  induction n with
  | zero => intro j v hj _ _ _; omega
  | succ n ih =>
    intro j v hj hov hrm hdata
    unfold clearDrops
    by_cases hjn : j = n
    · subst hjn
      rw [if_neg (by rw [hov, hrm]; simp)]
      apply List.mem_append_left
      rw [hdata]
      exact List.mem_singleton.mpr rfl
    · exact List.mem_append_right _ (ih j v (by omega) hov hrm hdata)

/-- Claim C10: `Bucket::clear` sets `len` to 0 and runs the recorded drop
glue on every live cell (each live value appears in the drop trace), and it
leaves `removed`, `cell_count`, the block sequence, every cell's generation
word (indeed the whole cell memory) and the layout unchanged — so every
index removed before the clear is still in the reuse pool afterwards. -/
theorem c10_clear_frame (P : TagPolicy) (cap : Nat) (b : Bucket) :
    (clearOp P cap b).1.len = 0 ∧
    (clearOp P cap b).1.removed = b.removed ∧
    (clearOp P cap b).1.cellCount = b.cellCount ∧
    (clearOp P cap b).1.blocks = b.blocks ∧
    (clearOp P cap b).1.mem = b.mem ∧
    (clearOp P cap b).1.layout = b.layout ∧
    (∀ j v, j < b.len → P.isOver ((b.mem j).tag) = false →
      b.removed.contains j = false → (b.mem j).data = some v →
      v ∈ (clearOp P cap b).2.2) := by
  unfold clearOp
  split
  · rename_i h
    exact ⟨h, rfl, rfl, rfl, rfl, rfl, fun j v hj _ _ _ => absurd hj (by omega)⟩
  · exact ⟨rfl, rfl, rfl, rfl, rfl, rfl,
      fun j v hj hov hrm hd => mem_clearDrops P b b.len j v hj hov hrm hd⟩

/-- Witness for C10 at a concrete input: clearing a bucket holding `5`
leaves `removed` unchanged (empty) and the dropped-values trace contains
`5`. -/
theorem c10_clear_frame_witness :
    (clearOp Unique32 4 (place Unique32 4 5 (Bucket.new L0)).1).1.removed = [] ∧
    5 ∈ (clearOp Unique32 4 (place Unique32 4 5 (Bucket.new L0)).1).2.2 := by
  have h := c10_clear_frame Unique32 4 (place Unique32 4 5 (Bucket.new L0)).1
  refine ⟨?_, ?_⟩
  · rw [h.2.1]; rfl
  · exact h.2.2.2.2.2.2 0 5 (by decide) (by decide) (by decide) (by decide)

/-! ### Claim C8 -/

theorem growIf_blocks (b : Bucket) (n : Nat) :
    (growIf b n).blocks = if b.blocks ≤ n then b.blocks + 1 else b.blocks := by
  unfold growIf; split <;> rfl

@[simp] theorem bumpLen_blocks (b : Bucket) (i : Nat) : (bumpLen b i).blocks = b.blocks := by
  unfold bumpLen; split <;> rfl

@[simp] theorem ccFix_blocks (b : Bucket) : (ccFix b).blocks = b.blocks := by
  unfold ccFix; split <;> rfl

@[simp] theorem writeCell_blocks (P : TagPolicy) (v : Val) (b : Bucket) (i t : Nat) :
    (writeCell P v b i t).blocks = b.blocks := rfl

/-- `place` on a bucket with no tombstones and `cell_count = len` (the state
after `N` placements and no removal): it appends at index `len`, reading the
default tag, and grows exactly when `len` reaches a block boundary past the
allocated blocks. -/
theorem place_full (P : TagPolicy) (cap : Nat) (v : Val) (s : Bucket)
    (hP0 : P.isOver 0 = false) (hrem : s.removed = []) (heq : s.cellCount = s.len) :
    (place P cap v s).1.len = s.len + 1 ∧
    (place P cap v s).1.cellCount = s.len + 1 ∧
    (place P cap v s).1.removed = [] ∧
    (place P cap v s).1.blocks =
      (if s.blocks ≤ s.len / cap then s.blocks + 1 else s.blocks) ∧
    (place P cap v s).1.mem =
      (fun j => if j = s.len then ⟨P.next 0, some v⟩ else s.mem j) ∧
    (place P cap v s).1.layout = s.layout ∧
    (place P cap v s).2 = (s.len, 0) := by
  have hni : nextIndex s = s.len := by unfold nextIndex; rw [hrem]
  have htv : tagval s s.len = 0 := by unfold tagval; rw [heq]; simp
  have hc1 : ¬(s.len < (growIf s (s.len / cap)).cellCount ∧
      P.isOver (((growIf s (s.len / cap)).mem s.len).tag) = true) := by
    rw [growIf_cellCount]
    rintro ⟨h, -⟩
    omega
  have hc2 : ¬ P.isOver (tagval (growIf s (s.len / cap)) s.len) = true := by
    rw [tagval_growIf, htv, hP0]
    exact Bool.false_ne_true
  unfold place
  rw [hni, heq]
  rw [placeLoop]
  rw [if_neg hc1, if_neg hc2]
  simp only [tagval_growIf, htv]
  refine ⟨?_, ?_, ?_, ?_, ?_, ?_, by simp⟩
  · rw [ccFix_len, bumpLen_len]
    simp
  · rw [ccFix_cellCount, bumpLen_cellCount, bumpLen_len]
    simp [heq]
  · rw [ccFix_removed, bumpLen_removed, writeCell_removed, growIf_removed, hrem]
    rfl
  · rw [ccFix_blocks, bumpLen_blocks, writeCell_blocks, growIf_blocks]
  · rw [ccFix_mem, bumpLen_mem, writeCell_mem, growIf_mem]
  · rw [ccFix_layout, bumpLen_layout, writeCell_layout, growIf_layout]

/-- `N` placements in a row, as the claim's scenario. -/
def placeN (P : TagPolicy) (cap : Nat) (v : Val) : Nat → Bucket → Bucket
  | 0, b => b
  | n + 1, b => (place P cap v (placeN P cap v n b)).1

/-- `ceil(a / b)` on naturals. -/
def ceilDiv (a b : Nat) : Nat := (a + b - 1) / b

theorem placeN_state (P : TagPolicy) (cap : Nat) (v : Val) (L : Layout)
    (hP0 : P.isOver 0 = false) (hcap : 0 < cap) :
    ∀ N, (placeN P cap v N (Bucket.new L)).len = N ∧
      (placeN P cap v N (Bucket.new L)).cellCount = N ∧
      (placeN P cap v N (Bucket.new L)).removed = [] ∧
      N ≤ (placeN P cap v N (Bucket.new L)).blocks * cap ∧
      (placeN P cap v N (Bucket.new L)).blocks * cap < N + cap := by
  intro N
  induction N with
  | zero =>
    refine ⟨rfl, rfl, rfl, ?_, ?_⟩
    · show (0:Nat) ≤ 0 * cap
      omega
    · show 0 * cap < 0 + cap
      omega
  | succ N ih =>
    obtain ⟨h1, h2, h3, h4, h5⟩ := ih
    obtain ⟨g1, g2, g3, g4, -, -, -⟩ :=
      place_full P cap v (placeN P cap v N (Bucket.new L)) hP0 h3 (h2.trans h1.symm)
    have hgrow : (placeN P cap v N (Bucket.new L)).blocks ≤
        (placeN P cap v N (Bucket.new L)).len / cap ↔
        (placeN P cap v N (Bucket.new L)).blocks * cap ≤
          (placeN P cap v N (Bucket.new L)).len :=
      Nat.le_div_iff_mul_le hcap
    refine ⟨by rw [show placeN P cap v (N+1) (Bucket.new L) =
        (place P cap v (placeN P cap v N (Bucket.new L))).1 from rfl, g1, h1],
      by rw [show placeN P cap v (N+1) (Bucket.new L) =
        (place P cap v (placeN P cap v N (Bucket.new L))).1 from rfl, g2, h1],
      by rw [show placeN P cap v (N+1) (Bucket.new L) =
        (place P cap v (placeN P cap v N (Bucket.new L))).1 from rfl, g3], ?_, ?_⟩ <;>
    · rw [show placeN P cap v (N+1) (Bucket.new L) =
        (place P cap v (placeN P cap v N (Bucket.new L))).1 from rfl, g4]
      split
      · rename_i hg
        have hx := hgrow.mp hg
        rw [h1] at hx
        rw [Nat.succ_mul]
        omega
      · rename_i hg
        have hx : ¬ (placeN P cap v N (Bucket.new L)).blocks * cap ≤
            (placeN P cap v N (Bucket.new L)).len := fun h => hg (hgrow.mpr h)
        rw [h1] at hx
        omega

/-- Claim C8: after `N` placements into one bucket with block capacity
`cap > 0` and no removal, the number of allocated blocks is
`ceil(N / cap)`; a subsequent `shrink_to_fit` leaves that same minimal
number of blocks covering `len = N` and sets `cell_count = len`. -/
theorem c8_blocks (P : TagPolicy) (cap : Nat) (v : Val) (L : Layout)
    (hP0 : P.isOver 0 = false) (hcap : 0 < cap) (N : Nat) :
    (placeN P cap v N (Bucket.new L)).blocks = ceilDiv N cap ∧
    (shrinkToFit cap (placeN P cap v N (Bucket.new L))).blocks = ceilDiv N cap ∧
    (shrinkToFit cap (placeN P cap v N (Bucket.new L))).cellCount = N ∧
    (shrinkToFit cap (placeN P cap v N (Bucket.new L))).len = N := by
  obtain ⟨h1, h2, h3, h4, h5⟩ := placeN_state P cap v L hP0 hcap N
  have hB : (placeN P cap v N (Bucket.new L)).blocks = ceilDiv N cap := by
    have hle : ceilDiv N cap ≤ (placeN P cap v N (Bucket.new L)).blocks := by
      have hlt : (N + cap - 1) / cap < (placeN P cap v N (Bucket.new L)).blocks + 1 := by
        rw [Nat.div_lt_iff_lt_mul hcap, Nat.succ_mul]
        omega
      unfold ceilDiv
      omega
    have hge : (placeN P cap v N (Bucket.new L)).blocks ≤ ceilDiv N cap := by
      unfold ceilDiv
      rw [Nat.le_div_iff_mul_le hcap]
      omega
    omega
  refine ⟨hB, ?_, ?_, ?_⟩
  · show (placeN P cap v N (Bucket.new L)).blocks -
      ((placeN P cap v N (Bucket.new L)).cellCount -
        (placeN P cap v N (Bucket.new L)).len) / cap = ceilDiv N cap
    rw [h1, h2, hB]
    simp
  · show (placeN P cap v N (Bucket.new L)).len = N
    exact h1
  · show (placeN P cap v N (Bucket.new L)).len = N
    exact h1

/-- Witness for C8 at the spec's literal scenario 3: ten placements at
capacity 4 give 3 blocks, and `shrink_to_fit` keeps all 3. -/
theorem c8_blocks_witness :
    (placeN Unique32 4 1 10 (Bucket.new L0)).blocks = 3 ∧
    (shrinkToFit 4 (placeN Unique32 4 1 10 (Bucket.new L0))).blocks = 3 := by
  have h := c8_blocks Unique32 4 1 L0 (by decide) (by decide) 10
  exact ⟨by rw [h.1]; rfl, by rw [h.2.1]; rfl⟩

/-! ### Claim C5

Reaching a banned cell under `Unique32` takes `u32::MAX` placements at one
index; the state after `k` place-at-0/remove-0 cycles is computed in closed
form by induction. -/

theorem bucketExt (a b : Bucket) (h1 : a.blocks = b.blocks) (h2 : a.layout = b.layout)
    (h3 : a.len = b.len) (h4 : a.cellCount = b.cellCount) (h5 : a.removed = b.removed)
    (h6 : ∀ j, a.mem j = b.mem j) : a = b := by
  cases a
  cases b
  simp only at h1 h2 h3 h4 h5 h6
  subst h1
  subst h2
  subst h3
  subst h4
  subst h5
  congr 1
  funext j
  exact h6 j

theorem removeOp_blocks (P : TagPolicy) (cap : Nat) (i : Nat) (b : Bucket) :
    (removeOp P cap i b).1.blocks = b.blocks := by
  unfold removeOp
  split
  · rfl
  · by_cases hlast : i = b.len - 1
    · simp only [if_pos hlast]
      split <;> rfl
    · simp only [if_neg hlast]
      split <;> rfl

theorem removeOp_layout (P : TagPolicy) (cap : Nat) (i : Nat) (b : Bucket) :
    (removeOp P cap i b).1.layout = b.layout := by
  unfold removeOp
  split
  · rfl
  · by_cases hlast : i = b.len - 1
    · simp only [if_pos hlast]
      split <;> rfl
    · simp only [if_neg hlast]
      split <;> rfl

theorem placeWrite_blocks (P : TagPolicy) (cap : Nat) (v : Val) (b : Bucket) (idx : Nat) :
    (placeWrite P cap v b idx).blocks =
      if b.blocks ≤ idx / cap then b.blocks + 1 else b.blocks := by
  unfold placeWrite
  rw [ccFix_blocks, bumpLen_blocks, writeCell_blocks, growIf_blocks]

/-- One place-at-0/remove-0 cycle under `Unique32` with capacity 4. -/
def cyclePR (v : Val) (b : Bucket) : Bucket :=
  (removeOp Unique32 4 0 (place Unique32 4 v b).1).1

/-- `k` cycles from a fresh bucket. -/
def cycleIter (v : Val) : Nat → Bucket
  | 0 => Bucket.new L0
  | k + 1 => cyclePR v (cycleIter v k)

/-- Closed form of the state after `k ≥ 1` cycles: one block, one
initialized, tombstoned cell at index 0 carrying tag `k`. -/
def cycleState (v : Val) (k : Nat) : Bucket :=
  { blocks := 1, layout := L0, len := 0, cellCount := 1, removed := [0],
    mem := fun j => if j = 0 then ⟨k, some v⟩ else ⟨0, none⟩ }

theorem cycleStep (v : Val) (k : Nat) (hk : k + 1 < U32MAX) :
    cyclePR v (cycleState v k) = cycleState v (k + 1) := by
  have hmem0 : ((cycleState v k).mem 0).tag = k := rfl
  have hov : Unique32.isOver k = false := by
    unfold Unique32
    simp only
    rw [decide_eq_false_iff_not]
    omega
  have hok : RemovedOk Unique32 (cycleState v k) := by
    intro j hj
    have : j = 0 := by
      rcases List.mem_singleton.mp hj with h
      exact h
    subst this
    rw [hmem0]
    exact hov
  have hplace := place_head Unique32 4 v (cycleState v k) 0 [] rfl (by decide) hok
  have htv : tagval (cycleState v k) 0 = k := rfl
  rw [htv] at hplace
  have hnext : Unique32.next k = k + 1 := by
    unfold Unique32
    simp only
    omega
  have hmem1 : (placeWrite Unique32 4 v (cycleState v k) 0).mem 0 = ⟨k + 1, some v⟩ := by
    rw [placeWrite_mem]
    show (if (0:Nat) = 0 then
        (⟨Unique32.next (tagval (cycleState v k) 0), some v⟩ : Cell)
      else (cycleState v k).mem 0) = _
    rw [if_pos rfl, htv, hnext]
  have hlen1 : (placeWrite Unique32 4 v (cycleState v k) 0).len = 1 := by
    rw [placeWrite_len]
    rfl
  have hov1 : Unique32.isOver (((placeWrite Unique32 4 v (cycleState v k) 0).mem 0).tag)
      = false := by
    rw [hmem1]
    unfold Unique32
    simp only
    rw [decide_eq_false_iff_not]
    omega
  have hrm1 : (placeWrite Unique32 4 v (cycleState v k) 0).removed.contains 0 = false := by
    rw [placeWrite_removed]
    rfl
  obtain ⟨hr1, hr2, hr3, hr4, hr5⟩ := removeOp_succ Unique32 4 0
    (placeWrite Unique32 4 v (cycleState v k) 0) (by rw [hlen1]; omega) hrm1 hov1
  unfold cyclePR
  rw [hplace]
  apply bucketExt
  · rw [removeOp_blocks, placeWrite_blocks]
    rfl
  · rw [removeOp_layout, placeWrite_layout]
    rfl
  · rw [hr4, hlen1]
    rfl
  · rw [hr5]
    rfl
  · rw [hr2, placeWrite_removed]
    rfl
  · intro j
    rw [hr3, placeWrite_mem]
    by_cases hj : j = 0
    · subst hj
      show (if (0:Nat) = 0 then
          (⟨Unique32.next (tagval (cycleState v k) 0), some v⟩ : Cell)
        else (cycleState v k).mem 0) = _
      rw [if_pos rfl, htv, hnext]
      show _ = (if (0:Nat) = 0 then (⟨k + 1, some v⟩ : Cell) else ⟨0, none⟩)
      rw [if_pos rfl]
    · show (if j = 0 then
          (⟨Unique32.next (tagval (cycleState v k) 0), some v⟩ : Cell)
        else (cycleState v k).mem j) = _
      rw [if_neg hj]
      show (if j = 0 then (⟨k, some v⟩ : Cell) else ⟨0, none⟩)
          = (if j = 0 then (⟨k + 1, some v⟩ : Cell) else ⟨0, none⟩)
      rw [if_neg hj, if_neg hj]

theorem cycleBase (v : Val) : cycleIter v 1 = cycleState v 1 := by
  obtain ⟨g1, g2, g3, g4, g5, g6, -⟩ :=
    place_full Unique32 4 v (Bucket.new L0) (by decide) rfl rfl
  have hmem0 : (place Unique32 4 v (Bucket.new L0)).1.mem 0 = ⟨1, some v⟩ := by
    rw [g5]
    show (if (0:Nat) = 0 then
        (⟨Unique32.next 0, some v⟩ : Cell) else (Bucket.new L0).mem 0) = _
    rw [if_pos rfl]
    rfl
  have hov1 : Unique32.isOver (((place Unique32 4 v (Bucket.new L0)).1.mem 0).tag)
      = false := by
    rw [hmem0]
    rfl
  have hrm1 : (place Unique32 4 v (Bucket.new L0)).1.removed.contains 0 = false := by
    rw [g3]
    rfl
  obtain ⟨hr1, hr2, hr3, hr4, hr5⟩ := removeOp_succ Unique32 4 0
    (place Unique32 4 v (Bucket.new L0)).1 (by rw [g1]; omega) hrm1 hov1
  show (removeOp Unique32 4 0 (place Unique32 4 v (Bucket.new L0)).1).1 = _
  apply bucketExt
  · rw [removeOp_blocks, g4]
    rfl
  · rw [removeOp_layout, g6]
    rfl
  · rw [hr4, g1]
    rfl
  · rw [hr5, g2]
    rfl
  · rw [hr2, g3]
    rfl
  · intro j
    rw [hr3, g5]
    by_cases hj : j = 0
    · subst hj
      show (if (0:Nat) = 0 then
          (⟨Unique32.next 0, some v⟩ : Cell) else (Bucket.new L0).mem 0)
        = (if (0:Nat) = 0 then (⟨1, some v⟩ : Cell) else ⟨0, none⟩)
      rw [if_pos rfl, if_pos rfl]
      rfl
    · show (if j = 0 then
          (⟨Unique32.next 0, some v⟩ : Cell) else (Bucket.new L0).mem j)
        = (if j = 0 then (⟨1, some v⟩ : Cell) else ⟨0, none⟩)
      rw [if_neg hj, if_neg hj]
      rfl

theorem cycleIter_eq (v : Val) : ∀ k, 1 ≤ k → k < U32MAX →
    cycleIter v k = cycleState v k := by
  intro k
  induction k with
  | zero => intro h _; omega
  | succ k ih =>
    intro h1 h2
    by_cases hk : k = 0
    · subst hk
      exact cycleBase v
    · have ihh := ih (by omega) (by omega)
      show cyclePR v (cycleIter v k) = _
      rw [ihh]
      exact cycleStep v k h2

/-- Claim C5, counterexample: after `u32::MAX - 1` place/remove cycles at
index 0 and one further placement (whose written generation saturates to
`u32::MAX`, banning the cell), `try_remove` on index 0 — the banned last
index — returns none yet decrements `len` from 1 to 0: a none-returning
`try_*` call that changes the bucket state, refuting the frame part of the
claim. -/
theorem c5_counterexample :
    (tryRemove Unique32 4 L0 0 (place Unique32 4 9 (cycleIter 9 (U32MAX - 1))).1).2
      = none ∧
    (place Unique32 4 9 (cycleIter 9 (U32MAX - 1))).1.len = 1 ∧
    (tryRemove Unique32 4 L0 0 (place Unique32 4 9 (cycleIter 9 (U32MAX - 1))).1).1.len
      = 0 := by
  have hstate := cycleIter_eq 9 (U32MAX - 1) (by decide) (by decide)
  rw [hstate]
  decide

/-- In reachable states, every initialized cell holds written data. -/
def DataOk (b : Bucket) : Prop := ∀ j, j < b.cellCount → (b.mem j).data ≠ none

theorem getOp_none_iff (P : TagPolicy) (cap : Nat) (i : Nat) (b : Bucket)
    (hlc : LenLeCC b) (hdata : DataOk b) :
    (getOp P cap i b = none ↔
      b.len ≤ i ∨ b.removed.contains i = true ∨ P.isOver ((b.mem i).tag) = true) := by
  unfold getOp
  split
  · rename_i h
    constructor
    · intro _
      rcases h with h | h
      · exact Or.inl h
      · exact Or.inr (Or.inl h)
    · intro _
      rfl
  · rename_i h
    have h1 : i < b.len := by
      rcases not_or.mp h with ⟨hh, -⟩
      omega
    have h2 : b.removed.contains i = false := by
      rcases not_or.mp h with ⟨-, hh⟩
      simpa using hh
    split
    · rename_i hov
      constructor
      · intro _
        exact Or.inr (Or.inr hov)
      · intro _
        rfl
    · rename_i hov
      have hov2 : P.isOver ((b.mem i).tag) = false := by simpa using hov
      have hd : (b.mem i).data ≠ none := hdata i (by unfold LenLeCC at hlc; omega)
      constructor
      · intro hn
        exact absurd hn hd
      · rintro (hh | hh | hh)
        · omega
        · rw [h2] at hh
          exact Bool.noConfusion hh
        · rw [hov2] at hh
          exact Bool.noConfusion hh

theorem removeOp_none_iff (P : TagPolicy) (cap : Nat) (i : Nat) (b : Bucket)
    (hlc : LenLeCC b) (hdata : DataOk b) :
    ((removeOp P cap i b).2 = none ↔
      b.len ≤ i ∨ b.removed.contains i = true ∨ P.isOver ((b.mem i).tag) = true) := by
  have hb1mem : (if i = b.len - 1 then { b with len := b.len - 1 } else b).mem = b.mem := by
    split <;> rfl
  unfold removeOp
  split
  · rename_i h
    constructor
    · intro _
      rcases h with h | h
      · exact Or.inl h
      · exact Or.inr (Or.inl h)
    · intro _
      rfl
  · rename_i h
    have h1 : i < b.len := by
      rcases not_or.mp h with ⟨hh, -⟩
      omega
    have h2 : b.removed.contains i = false := by
      rcases not_or.mp h with ⟨-, hh⟩
      simpa using hh
    simp only [hb1mem]
    split
    · rename_i hov
      constructor
      · intro _
        exact Or.inr (Or.inr hov)
      · intro _
        rfl
    · rename_i hov
      have hov2 : P.isOver ((b.mem i).tag) = false := by simpa using hov
      have hd : (b.mem i).data ≠ none := hdata i (by unfold LenLeCC at hlc; omega)
      constructor
      · intro hn
        exact absurd hn hd
      · rintro (hh | hh | hh)
        · omega
        · rw [h2] at hh
          exact Bool.noConfusion hh
        · rw [hov2] at hh
          exact Bool.noConfusion hh

theorem removeOp_none_frame (P : TagPolicy) (cap : Nat) (i : Nat) (b : Bucket)
    (hlc : LenLeCC b) (hdata : DataOk b) :
    (removeOp P cap i b).2 = none →
      (removeOp P cap i b).1 = b ∨
      (P.isOver ((b.mem i).tag) = true ∧ i < b.len ∧ i = b.len - 1 ∧
        (removeOp P cap i b).1 = { b with len := b.len - 1 }) := by
  unfold removeOp
  split
  · intro _
    exact Or.inl rfl
  · rename_i h
    have h1 : i < b.len := by
      rcases not_or.mp h with ⟨hh, -⟩
      omega
    have hd : (b.mem i).data ≠ none := hdata i (by unfold LenLeCC at hlc; omega)
    by_cases hlast : i = b.len - 1
    · simp only [if_pos hlast]
      split
      · rename_i hov
        intro _
        exact Or.inr ⟨hov, h1, hlast, rfl⟩
      · intro hn
        exact absurd hn hd
    · simp only [if_neg hlast]
      split
      · intro _
        exact Or.inl rfl
      · intro hn
        exact absurd hn hd

/-- Claim C5 (amended): on any state satisfying the reachable-state
invariants, `try_get`, `try_get_mut`, `try_place` and `try_remove` are total
and return none exactly under the mismatch conditions — wrong layout; and
for the index-taking operations index `≥ len`, index in `removed`, or banned
cell.  A none-returning `try_place`/`try_get`/`try_get_mut` leaves the state
unchanged, and so does a none-returning `try_remove` EXCEPT on a banned cell
at index `len - 1`, where it decrements `len` (the deviation the
counterexample exhibits). -/
theorem c5_amended (P : TagPolicy) (cap : Nat) (L : Layout) (i : Nat) (v : Val)
    (b : Bucket) (hlc : LenLeCC b) (hdata : DataOk b) :
    (tryGet P cap L i b = none ↔
      b.layout ≠ L ∨ b.len ≤ i ∨ b.removed.contains i = true ∨
        P.isOver ((b.mem i).tag) = true) ∧
    (tryGetMut P cap L i b = none ↔
      b.layout ≠ L ∨ b.len ≤ i ∨ b.removed.contains i = true ∨
        P.isOver ((b.mem i).tag) = true) ∧
    ((tryPlace P cap L v b).2 = none ↔ b.layout ≠ L) ∧
    ((tryPlace P cap L v b).2 = none → (tryPlace P cap L v b).1 = b) ∧
    ((tryRemove P cap L i b).2 = none ↔
      b.layout ≠ L ∨ b.len ≤ i ∨ b.removed.contains i = true ∨
        P.isOver ((b.mem i).tag) = true) ∧
    ((tryRemove P cap L i b).2 = none →
      (tryRemove P cap L i b).1 = b ∨
      (P.isOver ((b.mem i).tag) = true ∧ i < b.len ∧ i = b.len - 1 ∧
        (tryRemove P cap L i b).1 = { b with len := b.len - 1 })) := by
  have hmut : getMutOp P cap i b = getOp P cap i b := rfl
  refine ⟨?_, ?_, ?_, ?_, ?_, ?_⟩
  · unfold tryGet
    split
    · rename_i h
      exact ⟨fun _ => Or.inl h, fun _ => rfl⟩
    · rename_i h
      constructor
      · intro hn
        rcases (getOp_none_iff P cap i b hlc hdata).mp hn with hh | hh | hh
        · exact Or.inr (Or.inl hh)
        · exact Or.inr (Or.inr (Or.inl hh))
        · exact Or.inr (Or.inr (Or.inr hh))
      · rintro (hh | hh | hh | hh)
        · exact absurd hh h
        · exact (getOp_none_iff P cap i b hlc hdata).mpr (Or.inl hh)
        · exact (getOp_none_iff P cap i b hlc hdata).mpr (Or.inr (Or.inl hh))
        · exact (getOp_none_iff P cap i b hlc hdata).mpr (Or.inr (Or.inr hh))
  · unfold tryGetMut
    split
    · rename_i h
      exact ⟨fun _ => Or.inl h, fun _ => rfl⟩
    · rename_i h
      rw [hmut]
      constructor
      · intro hn
        rcases (getOp_none_iff P cap i b hlc hdata).mp hn with hh | hh | hh
        · exact Or.inr (Or.inl hh)
        · exact Or.inr (Or.inr (Or.inl hh))
        · exact Or.inr (Or.inr (Or.inr hh))
      · rintro (hh | hh | hh | hh)
        · exact absurd hh h
        · exact (getOp_none_iff P cap i b hlc hdata).mpr (Or.inl hh)
        · exact (getOp_none_iff P cap i b hlc hdata).mpr (Or.inr (Or.inl hh))
        · exact (getOp_none_iff P cap i b hlc hdata).mpr (Or.inr (Or.inr hh))
  · unfold tryPlace
    split
    · rename_i h
      exact ⟨fun _ => h, fun _ => rfl⟩
    · rename_i h
      constructor
      · intro hn
        exact Option.noConfusion hn
      · intro hh
        exact absurd hh h
  · unfold tryPlace
    split
    · intro _
      rfl
    · intro hn
      exact Option.noConfusion hn
  · unfold tryRemove
    split
    · rename_i h
      exact ⟨fun _ => Or.inl h, fun _ => rfl⟩
    · rename_i h
      constructor
      · intro hn
        rcases (removeOp_none_iff P cap i b hlc hdata).mp hn with hh | hh | hh
        · exact Or.inr (Or.inl hh)
        · exact Or.inr (Or.inr (Or.inl hh))
        · exact Or.inr (Or.inr (Or.inr hh))
      · rintro (hh | hh | hh | hh)
        · exact absurd hh h
        · exact (removeOp_none_iff P cap i b hlc hdata).mpr (Or.inl hh)
        · exact (removeOp_none_iff P cap i b hlc hdata).mpr (Or.inr (Or.inl hh))
        · exact (removeOp_none_iff P cap i b hlc hdata).mpr (Or.inr (Or.inr hh))
  · unfold tryRemove
    split
    · intro _
      exact Or.inl rfl
    · intro hn
      exact removeOp_none_frame P cap i b hlc hdata hn

/-- Witness for the amended C5 at concrete inputs: on a fresh bucket,
`try_get` at index 0 returns none (out of range), and a `try_place` with
the wrong layout returns none leaving the bucket unchanged. -/
theorem c5_amended_witness :
    tryGet Unique32 4 L0 0 (Bucket.new L0) = none ∧
    (tryPlace Unique32 4 ⟨1, 1⟩ 5 (Bucket.new L0)).2 = none := by
  have h := c5_amended Unique32 4 L0 0 5 (Bucket.new L0) (Nat.le_refl 0)
    (fun j hj => absurd hj (Nat.not_lt_zero j))
  have h2 := c5_amended Unique32 4 ⟨1, 1⟩ 0 5 (Bucket.new L0) (Nat.le_refl 0)
    (fun j hj => absurd hj (Nat.not_lt_zero j))
  exact ⟨h.1.mpr (Or.inr (Or.inl (Nat.le_refl 0))), h2.2.2.1.mpr (by decide)⟩

/-! ### Claim C6 -/

theorem removeOp_frame (P : TagPolicy) (cap : Nat) (i : Nat) (b : Bucket) :
    (removeOp P cap i b).1.mem = b.mem ∧
    (removeOp P cap i b).1.cellCount = b.cellCount ∧
    ((removeOp P cap i b).1.removed = b.removed ∨
      ((removeOp P cap i b).1.removed = i :: b.removed ∧ i < b.len)) := by
  unfold removeOp
  split
  · exact ⟨rfl, rfl, Or.inl rfl⟩
  · rename_i h
    have h1 : i < b.len := by
      rcases not_or.mp h with ⟨hh, -⟩
      omega
    by_cases hlast : i = b.len - 1
    · simp only [if_pos hlast]
      split
      · exact ⟨rfl, rfl, Or.inl rfl⟩
      · exact ⟨rfl, rfl, Or.inr ⟨rfl, h1⟩⟩
    · simp only [if_neg hlast]
      split
      · exact ⟨rfl, rfl, Or.inl rfl⟩
      · exact ⟨rfl, rfl, Or.inr ⟨rfl, h1⟩⟩

theorem invc_place (P : TagPolicy) (cap : Nat) (v : Val) (b : Bucket)
    (hP0 : P.isOver 0 = false) (hinv : InvC P b) : InvC P (place P cap v b).1 := by
  obtain ⟨hlc, hok, hrlt, hvt⟩ := hinv
  have hW := winv_place P cap v b hP0 ⟨hlc, hok⟩
  obtain ⟨k, b0, heq, hov, hrem0, hcc0, hmem0, hlay0, hlen0, hnil, hcons⟩ :=
    place_spec P cap v b hP0 hlc hok
  have h1 : (place P cap v b).1 = placeWrite P cap v b0 k := by rw [heq]
  have hccmono : b.cellCount ≤ (placeWrite P cap v b0 k).cellCount := by
    rw [placeWrite_cellCount, ← hcc0]
    exact Nat.le_max_left _ _
  have hcck : k < (placeWrite P cap v b0 k).cellCount := by
    rw [placeWrite_cellCount]
    cases hr : b.removed with
    | nil =>
      obtain ⟨-, hbl⟩ := hnil hr
      have hl : (placeWrite P cap v b0 k).len = k + 1 := by
        rw [placeWrite_len, hbl]
        simp
      rw [hl]
      have := Nat.le_max_right b0.cellCount (k + 1)
      omega
    | cons j rest =>
      obtain ⟨hkj, -⟩ := hcons j rest hr
      have hj : j < b.cellCount := hrlt j (by rw [hr]; exact List.mem_cons_self j rest)
      have hk2 : k < b0.cellCount := by
        rw [hcc0, hkj]
        exact hj
      have := Nat.le_max_left b0.cellCount ((placeWrite P cap v b0 k).len)
      omega
  rw [h1] at hW
  refine ⟨?_, ?_, ?_, ?_⟩
  · rw [h1]
    exact hW.1
  · rw [h1]
    exact hW.2
  · intro j hj
    rw [h1] at hj ⊢
    rw [placeWrite_removed] at hj
    have hjb : j ∈ b.removed := hrem0 ▸ (List.mem_filter.mp hj).1
    exact lt_of_lt_of_le (hrlt j hjb) hccmono
  · intro j hjge
    rw [h1] at hjge ⊢
    rw [placeWrite_mem]
    have hjk : ¬ j = k := by omega
    simp only [if_neg hjk]
    rw [hmem0]
    exact hvt j (Nat.le_trans hccmono hjge)

theorem invc_remove (P : TagPolicy) (cap : Nat) (i : Nat) (b : Bucket)
    (hinv : InvC P b) : InvC P (removeOp P cap i b).1 := by
  obtain ⟨hlc, hok, hrlt, hvt⟩ := hinv
  have hW := winv_remove P cap i b ⟨hlc, hok⟩
  obtain ⟨hm, hcc, hrem⟩ := removeOp_frame P cap i b
  refine ⟨hW.1, hW.2, ?_, ?_⟩
  · intro j hj
    rw [hcc]
    rcases hrem with h | ⟨h, hi⟩
    · rw [h] at hj
      exact hrlt j hj
    · rw [h] at hj
      rcases List.mem_cons.mp hj with hh | hh
      · subst hh
        unfold LenLeCC at hlc
        omega
      · exact hrlt j hh
  · intro j hjge
    rw [hm]
    rw [hcc] at hjge
    exact hvt j hjge

theorem invc_clear (P : TagPolicy) (cap : Nat) (b : Bucket)
    (hinv : InvC P b) : InvC P (clearOp P cap b).1 := by
  obtain ⟨hlc, hok, hrlt, hvt⟩ := hinv
  unfold clearOp
  split
  · exact ⟨hlc, hok, hrlt, hvt⟩
  · exact ⟨Nat.zero_le _, hok, hrlt, hvt⟩

theorem invc_applyOp (P : TagPolicy) (cap : Nat) (o : BOp) (b : Bucket)
    (hP0 : P.isOver 0 = false) (hinv : InvC P b) (hall : C6Allowed o) :
    InvC P (applyOp P cap o b) := by
  cases o with
  | doPlace v => exact invc_place P cap v b hP0 hinv
  | doRemove i => exact invc_remove P cap i b hinv
  | doClear => exact invc_clear P cap b hinv
  | doReset => exact absurd hall (by simp [C6Allowed])
  | doShrink => exact absurd hall (by simp [C6Allowed])

theorem tag_mono_applyOp (P : TagPolicy) (cap : Nat) (o : BOp) (i : Nat) (b : Bucket)
    (hP0 : P.isOver 0 = false)
    (hstrict : ∀ g, P.isOver g = false → g < P.next g)
    (hinv : InvC P b) (hall : C6Allowed o) :
    (b.mem i).tag ≤ ((applyOp P cap o b).mem i).tag := by
  cases o with
  | doPlace v =>
    obtain ⟨hlc, hok, hrlt, hvt⟩ := hinv
    obtain ⟨k, b0, heq, hov, hrem0, hcc0, hmem0, hlay0, hlen0, hnil, hcons⟩ :=
      place_spec P cap v b hP0 hlc hok
    show (b.mem i).tag ≤ ((place P cap v b).1.mem i).tag
    rw [show (place P cap v b).1 = placeWrite P cap v b0 k from by rw [heq]]
    rw [placeWrite_mem]
    by_cases hik : i = k
    · subst hik
      simp only [if_pos rfl]
      have htv : tagval b0 i = tagval b i := by unfold tagval; rw [hcc0, hmem0]
      rw [htv]
      show (b.mem i).tag ≤ P.next (tagval b i)
      rcases Nat.lt_or_ge i b.cellCount with hi | hi
      · have htag : tagval b i = (b.mem i).tag := by unfold tagval; rw [if_pos hi]
        rw [htag]
        rw [htag] at hov
        exact Nat.le_of_lt (hstrict _ hov)
      · have : (b.mem i).tag = 0 := hvt i hi
        rw [this]
        exact Nat.zero_le _
    · simp only [if_neg hik]
      rw [hmem0]
  | doRemove j =>
    show (b.mem i).tag ≤ ((removeOp P cap j b).1.mem i).tag
    rw [(removeOp_frame P cap j b).1]
  | doClear =>
    show (b.mem i).tag ≤ ((clearOp P cap b).1.mem i).tag
    unfold clearOp
    split
    · exact Nat.le_refl _
    · exact Nat.le_refl _
  | doReset => exact absurd hall (by simp [C6Allowed])
  | doShrink => exact absurd hall (by simp [C6Allowed])

theorem banned_applyOp (P : TagPolicy) (cap : Nat) (o : BOp) (i : Nat) (b : Bucket)
    (hP0 : P.isOver 0 = false) (hinv : InvC P b) (hall : C6Allowed o)
    (hban : P.isOver ((b.mem i).tag) = true) :
    P.isOver (((applyOp P cap o b).mem i).tag) = true := by
  cases o with
  | doPlace v =>
    obtain ⟨hlc, hok, hrlt, hvt⟩ := hinv
    obtain ⟨k, b0, heq, hov, hrem0, hcc0, hmem0, hlay0, hlen0, hnil, hcons⟩ :=
      place_spec P cap v b hP0 hlc hok
    have hki : ¬ i = k := by
      intro hk
      subst hk
      rcases Nat.lt_or_ge i b.cellCount with hi | hi
      · have htag : tagval b i = (b.mem i).tag := by unfold tagval; rw [if_pos hi]
        rw [htag, hban] at hov
        exact Bool.noConfusion hov
      · have h0 : (b.mem i).tag = 0 := hvt i hi
        rw [h0, hP0] at hban
        exact Bool.noConfusion hban
    show P.isOver (((place P cap v b).1.mem i).tag) = true
    rw [show (place P cap v b).1 = placeWrite P cap v b0 k from by rw [heq]]
    rw [placeWrite_mem]
    simp only [if_neg hki]
    rw [hmem0]
    exact hban
  | doRemove j =>
    show P.isOver (((removeOp P cap j b).1.mem i).tag) = true
    rw [(removeOp_frame P cap j b).1]
    exact hban
  | doClear =>
    show P.isOver (((clearOp P cap b).1.mem i).tag) = true
    unfold clearOp
    split
    · exact hban
    · exact hban
  | doReset => exact absurd hall (by simp [C6Allowed])
  | doShrink => exact absurd hall (by simp [C6Allowed])

theorem invc_tag_runOps (P : TagPolicy) (cap : Nat) (i : Nat)
    (hP0 : P.isOver 0 = false)
    (hstrict : ∀ g, P.isOver g = false → g < P.next g) :
    ∀ ops b, InvC P b → (∀ o ∈ ops, C6Allowed o) →
      InvC P (runOps P cap ops b) ∧
      (b.mem i).tag ≤ ((runOps P cap ops b).mem i).tag := by
  intro ops
  induction ops with
  | nil => intro b hinv _; exact ⟨hinv, Nat.le_refl _⟩
  | cons o ops ih =>
    intro b hinv hall
    have h1 := invc_applyOp P cap o b hP0 hinv (hall o (List.mem_cons_self o ops))
    have h2 := tag_mono_applyOp P cap o i b hP0 hstrict hinv
      (hall o (List.mem_cons_self o ops))
    have h3 := ih (applyOp P cap o b) h1
      (fun o' ho' => hall o' (List.mem_cons_of_mem o ho'))
    exact ⟨h3.1, Nat.le_trans h2 h3.2⟩

theorem banned_runOps (P : TagPolicy) (cap : Nat) (i : Nat)
    (hP0 : P.isOver 0 = false)
    (hstrict : ∀ g, P.isOver g = false → g < P.next g) :
    ∀ ops b, InvC P b → (∀ o ∈ ops, C6Allowed o) →
      P.isOver ((b.mem i).tag) = true →
      P.isOver (((runOps P cap ops b).mem i).tag) = true := by
  intro ops
  induction ops with
  | nil => intro b _ _ hban; exact hban
  | cons o ops ih =>
    intro b hinv hall hban
    have h1 := invc_applyOp P cap o b hP0 hinv (hall o (List.mem_cons_self o ops))
    have h2 := banned_applyOp P cap o i b hP0 hinv (hall o (List.mem_cons_self o ops)) hban
    exact ih (applyOp P cap o b) h1
      (fun o' ho' => hall o' (List.mem_cons_of_mem o ho')) h2

/-- Claim C6, counterexample: `place 11` (witness 0), `remove 0`,
`shrink_to_fit` (which sets `cell_count = 0`, making cell 0 virgin again),
then `place 12` lands at index 0 again with witness 0 — the generations
returned by successive place operations landing at index 0 are 0, 0, not
strictly increasing, and no reset was called. -/
theorem c6_counterexample :
    (place Unique32 4 11 (Bucket.new L0)).2 = (0, 0) ∧
    (place Unique32 4 12 (shrinkToFit 4
      (removeOp Unique32 4 0 (place Unique32 4 11 (Bucket.new L0)).1).1)).2 = (0, 0) := by
  exact ⟨rfl, rfl⟩

/-- Claim C6 (amended): under a blocking policy (not-exhausted tags strictly
increase, the default tag is not exhausted), along any operation sequence
free of `reset()` AND `shrink_to_fit()`: (1) if a place lands at index `i`
with generation witness `g₁` and a later place lands at `i` again with
witness `g₂`, then `g₁ < g₂` — the witnesses observed at a fixed index
strictly increase; (2) once the cell at `i` is banned (its stored generation
is exhausted), no later place returns index `i`. -/
theorem c6_amended (P : TagPolicy) (cap : Nat)
    (hP0 : P.isOver 0 = false)
    (hstrict : ∀ g, P.isOver g = false → g < P.next g) :
    (∀ b, InvC P b → ∀ v b₁ i g₁, place P cap v b = (b₁, i, g₁) →
      ∀ ops, (∀ o ∈ ops, C6Allowed o) →
      ∀ w b₃ g₂, place P cap w (runOps P cap ops b₁) = (b₃, i, g₂) → g₁ < g₂) ∧
    (∀ b i, InvC P b → P.isOver ((b.mem i).tag) = true →
      ∀ ops, (∀ o ∈ ops, C6Allowed o) →
      ∀ w b' k g, place P cap w (runOps P cap ops b) = (b', k, g) → k ≠ i) := by
  constructor
  · intro b hinv v b₁ i g₁ h₁ ops hall w b₃ g₂ h₂
    obtain ⟨k, b0, heq, hov, hrem0, hcc0, hmem0, hlay0, hlen0, hnil, hcons⟩ :=
      place_spec P cap v b hP0 hinv.1 hinv.2.1
    rw [h₁] at heq
    injection heq with e1 e2
    injection e2 with e2 e3
    subst e1
    subst e2
    have hovg : P.isOver g₁ = false := by rw [e3]; exact hov
    have hb₁ : InvC P (placeWrite P cap v b0 i) := by
      have h := invc_place P cap v b hP0 hinv
      rw [h₁] at h
      exact h
    have htagb₁ : ((placeWrite P cap v b0 i).mem i).tag = P.next g₁ := by
      rw [placeWrite_mem]
      show (if i = i then (⟨P.next (tagval b0 i), some v⟩ : Cell)
        else b0.mem i).tag = P.next g₁
      rw [if_pos rfl]
      show P.next (tagval b0 i) = P.next g₁
      have htv : tagval b0 i = tagval b i := by unfold tagval; rw [hcc0, hmem0]
      rw [htv, ← e3]
    obtain ⟨hinv₂, hmono⟩ := invc_tag_runOps P cap i hP0 hstrict ops
      (placeWrite P cap v b0 i) hb₁ hall
    rw [htagb₁] at hmono
    obtain ⟨k2, c0, heq2, hov2, hrem2, hcc2, hmem2, hlay2, hlen2, hnil2, hcons2⟩ :=
      place_spec P cap w (runOps P cap ops (placeWrite P cap v b0 i)) hP0
        hinv₂.1 hinv₂.2.1
    rw [h₂] at heq2
    injection heq2 with f1 f2
    injection f2 with f2 f3
    subst f2
    have hnextpos : 1 ≤ P.next g₁ := by
      have := hstrict g₁ hovg
      omega
    rcases Nat.lt_or_ge i (runOps P cap ops (placeWrite P cap v b0 i)).cellCount
      with hi | hi
    · have : g₂ = ((runOps P cap ops (placeWrite P cap v b0 i)).mem i).tag := by
        rw [f3]
        unfold tagval
        rw [if_pos hi]
      have hs := hstrict g₁ hovg
      omega
    · have h0 : ((runOps P cap ops (placeWrite P cap v b0 i)).mem i).tag = 0 :=
        hinv₂.2.2.2 i hi
      rw [h0] at hmono
      omega
  · intro b i hinv hban ops hall w b' k g h
    obtain ⟨hinv₂, -⟩ := invc_tag_runOps P cap i hP0 hstrict ops b hinv hall
    have hban₂ := banned_runOps P cap i hP0 hstrict ops b hinv hall hban
    obtain ⟨k2, c0, heq2, hov2, hrem2, hcc2, hmem2, hlay2, hlen2, hnil2, hcons2⟩ :=
      place_spec P cap w (runOps P cap ops b) hP0 hinv₂.1 hinv₂.2.1
    rw [h] at heq2
    injection heq2 with f1 f2
    injection f2 with f2 f3
    subst f2
    intro hk
    subst hk
    rcases Nat.lt_or_ge k (runOps P cap ops b).cellCount with hi | hi
    · have : tagval (runOps P cap ops b) k = ((runOps P cap ops b).mem k).tag := by
        unfold tagval
        rw [if_pos hi]
      rw [this, hban₂] at hov2
      exact Bool.noConfusion hov2
    · have h0 : ((runOps P cap ops b).mem k).tag = 0 := hinv₂.2.2.2 k hi
      rw [h0, hP0] at hban₂
      exact Bool.noConfusion hban₂

theorem unique32_strict : ∀ g, Unique32.isOver g = false → g < Unique32.next g := by
  intro g h
  show g < min (g + 1) U32MAX
  have : ¬ (U32MAX ≤ g) := by
    intro hge
    rw [show Unique32.isOver g = decide (U32MAX ≤ g) from rfl] at h
    rw [decide_eq_true hge] at h
    exact Bool.noConfusion h
  omega

theorem invc_new (P : TagPolicy) (L : Layout) : InvC P (Bucket.new L) :=
  ⟨Nat.le_refl 0, fun j hj => absurd hj (List.not_mem_nil j),
   fun j hj => absurd hj (List.not_mem_nil j), fun j _ => rfl⟩

/-- Witness for the amended C6 at a concrete input: place `5` (witness 0),
remove it, place `6` landing at the same index — the second witness is
strictly larger. -/
theorem c6_amended_witness :
    (place Unique32 4 5 (Bucket.new L0)).2.2 <
      (place Unique32 4 6 (runOps Unique32 4 [BOp.doRemove 0]
        (place Unique32 4 5 (Bucket.new L0)).1)).2.2 := by
  apply (c6_amended Unique32 4 (by decide) unique32_strict).1 (Bucket.new L0)
    (invc_new Unique32 L0) 5 (place Unique32 4 5 (Bucket.new L0)).1 0
    (place Unique32 4 5 (Bucket.new L0)).2.2 rfl [BOp.doRemove 0]
    (by intro o ho; fin_cases ho; simp [C6Allowed]) 6
    (place Unique32 4 6 (runOps Unique32 4 [BOp.doRemove 0]
      (place Unique32 4 5 (Bucket.new L0)).1)).1
  rfl

/-! ### Claim C9 — type isolation across the erased-id surface

`id_access.rs` is present under src; the `Storage` it borrows — a mapping
from `TypeId` to `Bucket` — belongs to an iteration whose source is not
under src/, so only that map container is modelled from the spec.  The
decisive type guard (`TypeId::of::<T>() != id.type_id()`) is the source's
own code. -/

/-- Runtime type identity (`core::any::TypeId`): an opaque comparable token. -/
abbrev TypeId := Nat

/-- `Tid<T>` of `id.rs`: in-bucket index and tag witness (the type
parameter is phantom). -/
structure Tid where
  index : Nat
  tag : Nat
  deriving DecidableEq

/-- `Id` of `id.rs`: index, tag witness and the runtime type token. -/
structure ErasedId where
  index : Nat
  tag : Nat
  typeId : TypeId
  deriving DecidableEq

/-- `impl From<Tid<T>> for Id` (`id.rs` 66-74): widen by attaching the type
token of `T`. -/
def widenTid (T : TypeId) (t : Tid) : ErasedId := ⟨t.index, t.tag, T⟩

/-- Modelled from the spec: the checked narrowing `Id → Option<Tid<T>>`
("Conversion Id → Tid<T> succeeds iff the embedded type token equals T's
token", spec §3/§4.3); the narrowing conversion is absent from src — only
the widening exists in `id.rs`. -/
def narrowId (T : TypeId) (id : ErasedId) : Option Tid :=
  if id.typeId = T then some ⟨id.index, id.tag⟩ else none

/-- Modelled from the spec: the Storage behind `IdAccess` — "buckets: a
mapping from type token to Bucket" (spec §3); the Storage iteration that
`id_access.rs` borrows is not under src/. -/
structure StorageA where
  data : List (TypeId × Bucket)

/-- Assoc-list lookup standing for the map's `get`. -/
def lookupBucket : List (TypeId × Bucket) → TypeId → Option Bucket
  | [], _ => none
  | (u, b) :: rest, t => if u = t then some b else lookupBucket rest t

/-- Assoc-list update-or-insert standing for the map's `entry().or_insert`. -/
def setBucket : List (TypeId × Bucket) → TypeId → Bucket → List (TypeId × Bucket)
  | [], t, b => [(t, b)]
  | (u, b0) :: rest, t, b =>
    if u = t then (t, b) :: rest else (u, b0) :: setBucket rest t b

/-- `IdAccessMut::place` (`id_access.rs` 46-58): fetch or create the bucket
for `TypeId::of::<T>()`, place, and return `Id::new(index, tag, type_id)`.
`layoutOf` assigns each type token its recorded cell layout — distinct
tokens may share a layout. -/
def idaPlace (P : TagPolicy) (cap : Nat) (layoutOf : TypeId → Layout)
    (T : TypeId) (v : Val) (st : StorageA) : StorageA × ErasedId :=
  let b := (lookupBucket st.data T).getD (Bucket.new (layoutOf T))
  let r := place P cap v b
  (⟨setBucket st.data T r.1⟩, ⟨r.2.1, r.2.2, T⟩)

/-- `IdAccess::get` (`id_access.rs` 18-26): none unless
`TypeId::of::<T>() == id.type_id()`; then look up the bucket by the id's
token and forward to the bucket get. -/
def idaGet (P : TagPolicy) (cap : Nat) (T : TypeId) (id : ErasedId)
    (st : StorageA) : Option Val :=
  if T ≠ id.typeId then none
  else
    match lookupBucket st.data id.typeId with
    | some b => getOp P cap id.index b
    | none => none

/-- Claim C9: for distinct type tokens `T ≠ U` — even when `layoutOf`
assigns them identical size and alignment — retrieving with `U` an id
obtained by placing a value of type `T` returns none, renarrowing that
erased id to `U` returns none, and renarrowing any widened `Tid` of `T` to
`U` returns none. -/
theorem c9_type_isolation (P : TagPolicy) (cap : Nat) (layoutOf : TypeId → Layout)
    (st : StorageA) (T U : TypeId) (v : Val) (hTU : T ≠ U) :
    idaGet P cap U (idaPlace P cap layoutOf T v st).2
      (idaPlace P cap layoutOf T v st).1 = none ∧
    narrowId U (idaPlace P cap layoutOf T v st).2 = none ∧
    (∀ t : Tid, narrowId U (widenTid T t) = none) := by
  refine ⟨?_, ?_, ?_⟩
  · unfold idaGet
    rw [if_pos (show U ≠ (idaPlace P cap layoutOf T v st).2.typeId from
      fun h => hTU h.symm)]
  · unfold narrowId
    rw [if_neg (show ¬ (idaPlace P cap layoutOf T v st).2.typeId = U from hTU)]
  · intro t
    unfold narrowId widenTid
    rw [if_neg (show ¬ (T = U) from hTU)]

/-- Witness for C9 at concrete inputs: tokens 0 and 1 with the same layout
`L0`; a `u`-typed get and renarrowing of the 0-typed id both yield none. -/
theorem c9_type_isolation_witness :
    idaGet Unique32 4 1 (idaPlace Unique32 4 (fun _ => L0) 0 7 ⟨[]⟩).2
      (idaPlace Unique32 4 (fun _ => L0) 0 7 ⟨[]⟩).1 = none ∧
    narrowId 1 (idaPlace Unique32 4 (fun _ => L0) 0 7 ⟨[]⟩).2 = none := by
  have h := c9_type_isolation Unique32 4 (fun _ => L0) ⟨[]⟩ 0 1 7 (by decide)
  exact ⟨h.1, h.2.1⟩

end Nitro
